import Mathlib

/-! The reference source tracker of `source_tracker_unittest.cc`.

A shallow embedding of `ExpectedSourceTracker`
(`modules/rtp_rtcp/source/source_tracker_unittest.cc`, lines 42-94) and of the
unit tests around it.

* `entries_` (a `std::list<RtpSource>`) is a `List RtpSource`, front first.
* The clock is external: every call takes the reading `now_ms` it obtains from
  `clock_->TimeInMilliseconds()` as an argument.
* `int64_t` times are mathematical integers.  The only arithmetic on them is
  `now_ms - 10000`, which is exact for every reading above `-2^63 + 10000`;
  below that the C++ subtraction is undefined behaviour.
* `uint32_t` ids / RTP timestamps and the `uint8_t` audio level are naturals;
  they are only copied and compared, never computed with.
* `std::set<std::pair<RtpSourceType, uint32_t>>` is a duplicate-free list of
  keys that is only ever asked for membership.
-/

namespace webrtc

/-! ## Data model -/

/-- The enum `RtpSourceType` of `api/rtp_receiver_interface.h`. -/
inductive RtpSourceType where
  | SSRC
  | CSRC
  deriving DecidableEq

/-- The record `RtpSource`, with the constructor argument order used in the
tests: `RtpSource(timestamp_ms, source_id, source_type, audio_level,
rtp_timestamp)`. -/
structure RtpSource where
  timestamp_ms : Int
  source_id : Nat
  source_type : RtpSourceType
  audio_level : Option Nat
  rtp_timestamp : Nat
  deriving DecidableEq

/-- The record `RtpPacketInfo`, with the constructor argument order used in the
tests: `RtpPacketInfo(ssrc, csrcs, rtp_timestamp, audio_level,
receive_time_ms)`. -/
structure RtpPacketInfo where
  ssrc : Nat
  csrcs : List Nat
  rtp_timestamp : Nat
  audio_level : Option Nat
  receive_time_ms : Int
  deriving DecidableEq

/-- The element type of the set `seen` in `PruneEntries`:
`std::pair<RtpSourceType, uint32_t>`. -/
abbrev SourceKey := RtpSourceType × Nat

/-- The key built in `PruneEntries`:
`std::make_pair(it->source_type(), it->source_id())`. -/
def RtpSource.key (it : RtpSource) : SourceKey := (it.source_type, it.source_id)

/-- The constant `SourceTracker::kTimeoutMs` used by the tests; the reference
tracker writes the literal `10000`. -/
def kTimeoutMs : Int := 10000

namespace ExpectedSourceTracker

/-! ## `ExpectedSourceTracker` -/

/-- The call `seen.insert(key)` on a `std::set`: the set afterwards, and
`.second`, which is true exactly when the key was not yet in the set. -/
def setInsert (seen : List SourceKey) (key : SourceKey) : List SourceKey × Bool :=
  if key ∈ seen then (seen, false) else (key :: seen, true)

/-- The `while (it != end)` loop of `PruneEntries` (lines 78-88), started with
the set `seen` and the iterator at the front of the given list.  The result is
what is left of the list. -/
def PruneEntries.loop (prune_ms : Int) : List SourceKey → List RtpSource → List RtpSource
  | _, [] => []
  | seen, it :: next =>
    let key := (it.source_type, it.source_id)
    let inserted := setInsert seen key
    if !inserted.2 || decide (it.timestamp_ms < prune_ms) then
      PruneEntries.loop prune_ms inserted.1 next
    else
      it :: PruneEntries.loop prune_ms inserted.1 next

/-- The method `PruneEntries(now_ms)` (lines 71-89): `entries_` afterwards. -/
def PruneEntries (entries_ : List RtpSource) (now_ms : Int) : List RtpSource :=
  let prune_ms := now_ms - 10000
  PruneEntries.loop prune_ms [] entries_

/-- The body of the outer `for` of `OnFrameDelivered` for one packet (lines
50-58): one `emplace_front` per contributing source, in the order of
`csrcs()`, then one for the synchronization source. -/
def emplacePacket (now_ms : Int) (entries_ : List RtpSource) (packet_info : RtpPacketInfo) :
    List RtpSource :=
  let entries_ := packet_info.csrcs.foldl
    (fun entries_ csrc =>
      RtpSource.mk now_ms csrc RtpSourceType.CSRC packet_info.audio_level
        packet_info.rtp_timestamp :: entries_)
    entries_
  RtpSource.mk now_ms packet_info.ssrc RtpSourceType.SSRC packet_info.audio_level
    packet_info.rtp_timestamp :: entries_

/-- The outer `for (const auto& packet_info : packet_infos)` of
`OnFrameDelivered` (lines 49-59). -/
def emplaceFrame (now_ms : Int) (entries_ : List RtpSource) (packet_infos : List RtpPacketInfo) :
    List RtpSource :=
  packet_infos.foldl (emplacePacket now_ms) entries_

/-- The method `OnFrameDelivered(packet_infos)` (lines 46-62) when the clock
reads `now_ms`: `entries_` afterwards. -/
def OnFrameDelivered (entries_ : List RtpSource) (now_ms : Int)
    (packet_infos : List RtpPacketInfo) : List RtpSource :=
  PruneEntries (emplaceFrame now_ms entries_ packet_infos) now_ms

/-- The method `GetSources()` (lines 64-68) when the clock reads `now_ms`: the
returned vector, and `entries_` afterwards (the method prunes the mutable
list before copying it). -/
def GetSources (entries_ : List RtpSource) (now_ms : Int) : List RtpSource × List RtpSource :=
  let entries_ := PruneEntries entries_ now_ms
  (entries_, entries_)

/-! ## Call sequences -/

/-- One call on a tracker, with the clock reading the call obtains. -/
inductive Call where
  | OnFrameDelivered (now_ms : Int) (packet_infos : List RtpPacketInfo)
  | GetSources (now_ms : Int)
  deriving DecidableEq

/-- The clock reading of a call. -/
def Call.now_ms : Call → Int
  | Call.OnFrameDelivered now_ms _ => now_ms
  | Call.GetSources now_ms => now_ms

/-- The list `entries_` after one call. -/
def step (entries_ : List RtpSource) : Call → List RtpSource
  | Call.OnFrameDelivered now_ms packet_infos => OnFrameDelivered entries_ now_ms packet_infos
  | Call.GetSources now_ms => (GetSources entries_ now_ms).2

/-- The list `entries_` after a sequence of calls, made in list order. -/
def run (entries_ : List RtpSource) (calls : List Call) : List RtpSource :=
  calls.foldl step entries_

/-- The clock readings of a sequence of calls, in call order. -/
def clockReadings (calls : List Call) : List Int := calls.map Call.now_ms

/-- The keys a packet carries: its contributing sources and its
synchronization source. -/
def packetKeys (packet_info : RtpPacketInfo) : List SourceKey :=
  packet_info.csrcs.map (fun csrc => (RtpSourceType.CSRC, csrc)) ++
    [(RtpSourceType.SSRC, packet_info.ssrc)]

/-- The keys occurring in a frame. -/
def frameKeys (packet_infos : List RtpPacketInfo) : List SourceKey :=
  packet_infos.flatMap packetKeys

/-- The clock reading of the latest `OnFrameDelivered` call of the sequence
whose frame contains the key, if there is one. -/
def latestDelivery (key : SourceKey) (calls : List Call) : Option Int :=
  calls.foldl
    (fun latest call =>
      match call with
      | Call.OnFrameDelivered now_ms packet_infos =>
        if key ∈ frameKeys packet_infos then some now_ms else latest
      | Call.GetSources _ => latest)
    none

/-- The last packet of a frame that carries the key, if there is one. -/
def lastPacketWith (key : SourceKey) (packet_infos : List RtpPacketInfo) : Option RtpPacketInfo :=
  packet_infos.foldl
    (fun last packet_info => if key ∈ packetKeys packet_info then some packet_info else last)
    none

/-- Every entry ever pushed by the calls of a sequence, most recent push
first: the list `entries_` would hold if `PruneEntries` never erased. -/
def pushed (calls : List Call) : List RtpSource :=
  calls.foldl
    (fun entries_ call =>
      match call with
      | Call.OnFrameDelivered now_ms packet_infos => emplaceFrame now_ms entries_ packet_infos
      | Call.GetSources _ => entries_)
    []

/-- The listing of the single-frame order property: for each packet in frame
order, one entry per contributing source in listed order, then the entry of
the synchronization source. -/
def listing (now_ms : Int) (packet_infos : List RtpPacketInfo) : List RtpSource :=
  packet_infos.flatMap (fun packet_info =>
    packet_info.csrcs.map
        (fun csrc => RtpSource.mk now_ms csrc RtpSourceType.CSRC packet_info.audio_level
          packet_info.rtp_timestamp) ++
      [RtpSource.mk now_ms packet_info.ssrc RtpSourceType.SSRC packet_info.audio_level
        packet_info.rtp_timestamp])

end ExpectedSourceTracker

namespace SourceTracker

/-! ## The production tracker, as designed in the specification -/

/-- Modelled from the spec: the prune pass of the production `SourceTracker`,
whose implementation `source_tracker.cc` is not among the sources.  Section
4.1: visit each entry front to back; if its key has already been seen, remove
it; otherwise if its `timestamp_ms < cutoff`, remove it; otherwise keep it and
mark its key seen. -/
def PruneEntries.loop (cutoff : Int) : List SourceKey → List RtpSource → List RtpSource
  | _, [] => []
  | seen, entry :: rest =>
    if entry.key ∈ seen then PruneEntries.loop cutoff seen rest
    else if entry.timestamp_ms < cutoff then PruneEntries.loop cutoff seen rest
    else entry :: PruneEntries.loop cutoff (entry.key :: seen) rest

/-- Modelled from the spec: the prune pass of the production `SourceTracker`
(`source_tracker.cc` is not among the sources) with
`cutoff = now - retention_window_ms`, the window being
`SourceTracker::kTimeoutMs`. -/
def PruneEntries (entries : List RtpSource) (now : Int) : List RtpSource :=
  PruneEntries.loop (now - kTimeoutMs) [] entries

/-- Modelled from the spec: the insertions of the production
`SourceTracker::OnFrameDelivered` (`source_tracker.cc` is not among the
sources) for one packet-info record.  Section 4.1: for each contributing-source
id of the record, then for its synchronization-source id, construct a new
entry `(now, id, type, audio_level, rtp_timestamp)` and insert it at the front
of the sequence, so that all contributing-source entries of a packet are
pushed before its synchronization-source entry.  The contributing-source ids
are taken in listed order, which leaves the most recently listed one first:
this is the order the test `OnFrameDeliveredRecordsSources` (lines 220-243)
and the single-frame scenario of section 8 fix for the production tracker,
csrcs `{20, 21}` giving `[SSRC 10, CSRC 21, CSRC 20]`. -/
def insertPacket (now : Int) (entries : List RtpSource) (packet_info : RtpPacketInfo) :
    List RtpSource :=
  let entries := packet_info.csrcs.foldl
    (fun entries csrc =>
      RtpSource.mk now csrc RtpSourceType.CSRC packet_info.audio_level
        packet_info.rtp_timestamp :: entries)
    entries
  RtpSource.mk now packet_info.ssrc RtpSourceType.SSRC packet_info.audio_level
    packet_info.rtp_timestamp :: entries

/-- Modelled from the spec: the production `SourceTracker::OnFrameDelivered`
(`source_tracker.cc` is not among the sources).  Section 4.1: read `now` once,
insert the entries of each packet-info record in the order given, then run the
prune pass using `now`. -/
def OnFrameDelivered (entries : List RtpSource) (now : Int) (packet_infos : List RtpPacketInfo) :
    List RtpSource :=
  PruneEntries (packet_infos.foldl (insertPacket now) entries) now

/-- Modelled from the spec: the production `SourceTracker::GetSources`
(`source_tracker.cc` is not among the sources).  Section 4.1: read `now`, run
the prune pass, return a copy of the surviving entries front to back.  The
pair is the returned snapshot and the state afterwards. -/
def GetSources (entries : List RtpSource) (now : Int) : List RtpSource × List RtpSource :=
  (PruneEntries entries now, PruneEntries entries now)

end SourceTracker

/-! ## The randomized differential test -/

/-- The snapshots `expected_tracker.GetSources()` yields in the loop of
`RandomOperations` (lines 195-205), one per iteration: deliver the frame,
advance the clock, query.  An iteration is a frame and the clock advance that
follows it. -/
def expectedSnapshots (now_ms : Int) (entries_ : List RtpSource) :
    List (List RtpPacketInfo × Int) → List (List RtpSource)
  | [] => []
  | (packet_infos, advance) :: iterations =>
    let entries_ := ExpectedSourceTracker.OnFrameDelivered entries_ now_ms packet_infos
    let now_ms := now_ms + advance
    let sources := ExpectedSourceTracker.GetSources entries_ now_ms
    sources.1 :: expectedSnapshots now_ms sources.2 iterations

/-- The snapshots `actual_tracker.GetSources()` yields in the loop of
`RandomOperations` (lines 195-205), one per iteration, for the production
tracker as modelled in `SourceTracker`. -/
def actualSnapshots (now_ms : Int) (entries : List RtpSource) :
    List (List RtpPacketInfo × Int) → List (List RtpSource)
  | [] => []
  | (packet_infos, advance) :: iterations =>
    let entries := SourceTracker.OnFrameDelivered entries now_ms packet_infos
    let now_ms := now_ms + advance
    let sources := SourceTracker.GetSources entries now_ms
    sources.1 :: actualSnapshots now_ms sources.2 iterations

/-! ## The specification's wording, for comparison with the code -/

/-- The prune policy in the words of section 4.1 of the specification, to be
compared with `ExpectedSourceTracker.PruneEntries.loop`: visit each entry
front to back; an entry whose key is already marked seen is removed; otherwise
an entry with `timestamp_ms < cutoff` is removed; otherwise the entry is kept
and its key is marked seen. -/
def prunePolicy.scan (cutoff : Int) : List SourceKey → List RtpSource → List RtpSource
  | _, [] => []
  | seen, entry :: rest =>
    if (entry.source_type, entry.source_id) ∈ seen then prunePolicy.scan cutoff seen rest
    else if entry.timestamp_ms < cutoff then prunePolicy.scan cutoff seen rest
    else entry :: prunePolicy.scan cutoff ((entry.source_type, entry.source_id) :: seen) rest

/-- The prune policy of section 4.1 with `cutoff = now - 10000` and no key
seen at the start. -/
def prunePolicy (entries : List RtpSource) (now : Int) : List RtpSource :=
  prunePolicy.scan (now - 10000) [] entries

/-- The entries of a sequence that are the first occurrence of their
`(source_type, source_id)` and are not older than the cutoff, in their
original order: position `i` is selected when no entry in front of it has its
key and its `timestamp_ms` is at least the cutoff. -/
def firstFresh (cutoff : Int) (entries : List RtpSource) : List RtpSource :=
  (List.range entries.length).filterMap (fun i =>
    match entries[i]? with
    | some entry =>
      if (∀ a ∈ entries.take i,
            (a.source_type, a.source_id) ≠ (entry.source_type, entry.source_id)) ∧
          cutoff ≤ entry.timestamp_ms then some entry
      else none
    | none => none)

/-- The insertions for one packet in the words of the contributing-source
processing order property: the contributing-source ids from the last listed
to the first listed, each new entry inserted at the front, then the
synchronization-source entry inserted at the front. -/
def insertLastListedFirst (now_ms : Int) (entries : List RtpSource)
    (packet_info : RtpPacketInfo) : List RtpSource :=
  let entries := packet_info.csrcs.reverse.foldl
    (fun entries csrc =>
      RtpSource.mk now_ms csrc RtpSourceType.CSRC packet_info.audio_level
        packet_info.rtp_timestamp :: entries)
    entries
  RtpSource.mk now_ms packet_info.ssrc RtpSourceType.SSRC packet_info.audio_level
    packet_info.rtp_timestamp :: entries

/-- The delivery in the words of the contributing-source processing order
property: `insertLastListedFirst` for each packet in frame order, followed by
the prune pass of the code. -/
def deliverLastListedFirst (entries : List RtpSource) (now_ms : Int)
    (packet_infos : List RtpPacketInfo) : List RtpSource :=
  ExpectedSourceTracker.PruneEntries (packet_infos.foldl (insertLastListedFirst now_ms) entries)
    now_ms

/-- A packet with its list of contributing sources reversed. -/
def RtpPacketInfo.reverseCsrcs (packet_info : RtpPacketInfo) : RtpPacketInfo :=
  RtpPacketInfo.mk packet_info.ssrc packet_info.csrcs.reverse packet_info.rtp_timestamp
    packet_info.audio_level packet_info.receive_time_ms

/-- The entries one packet leaves at the front of the sequence, front first:
its synchronization-source entry, then its contributing-source entries from
the last listed to the first listed. -/
def packetBlock (now_ms : Int) (packet_info : RtpPacketInfo) : List RtpSource :=
  RtpSource.mk now_ms packet_info.ssrc RtpSourceType.SSRC packet_info.audio_level
      packet_info.rtp_timestamp ::
    packet_info.csrcs.reverse.map
      (fun csrc => RtpSource.mk now_ms csrc RtpSourceType.CSRC packet_info.audio_level
        packet_info.rtp_timestamp)

/-- A packet with its receive time replaced by zero: what is left is the
ssrc, the csrcs, the audio level and the RTP timestamp. -/
def RtpPacketInfo.eraseReceiveTime (packet_info : RtpPacketInfo) : RtpPacketInfo :=
  RtpPacketInfo.mk packet_info.ssrc packet_info.csrcs packet_info.rtp_timestamp
    packet_info.audio_level 0

/-- A call with the receive time of every packet replaced by zero; the clock
reading of the call is kept. -/
def ExpectedSourceTracker.Call.eraseReceiveTime :
    ExpectedSourceTracker.Call → ExpectedSourceTracker.Call
  | ExpectedSourceTracker.Call.OnFrameDelivered now_ms packet_infos =>
    ExpectedSourceTracker.Call.OnFrameDelivered now_ms
      (packet_infos.map RtpPacketInfo.eraseReceiveTime)
  | ExpectedSourceTracker.Call.GetSources now_ms => ExpectedSourceTracker.Call.GetSources now_ms

/-! ## The unit tests' inputs -/

/-- The frame of `OnFrameDeliveredRecordsSources` (lines 231-232) and the
first frame of the two other scenario tests. -/
def frame0 : List RtpPacketInfo := [RtpPacketInfo.mk 10 [20, 21] 40 (some 50) 60]

/-- The second frame of `OnFrameDeliveredUpdatesSources` and
`TimedOutSourcesAreRemoved` (lines 268-270). -/
def frame1 : List RtpPacketInfo := [RtpPacketInfo.mk 10 [20, 22] 41 none 61]

/-- The start value of the tests' `SimulatedClock`, in milliseconds: the
constructor takes `1000000000000` microseconds. -/
def t0 : Int := 1000000000

/-- A frame in which the id `10` is the synchronization source of one packet
and a contributing source of another. -/
def frameBoth : List RtpPacketInfo :=
  [RtpPacketInfo.mk 10 [20] 40 (some 50) 60, RtpPacketInfo.mk 11 [10] 41 none 61]

/-- Two iterations of the differential test's loop: `frame0` followed by a
clock advance of 17 ms, `frame1` followed by an advance of the full window. -/
def iterations0 : List (List RtpPacketInfo × Int) := [(frame0, 17), (frame1, kTimeoutMs)]

/-- The two deliveries of `OnFrameDeliveredUpdatesSources` and
`TimedOutSourcesAreRemoved`: `frame0` at `t0`, `frame1` 17 ms later. -/
def updateCalls : List ExpectedSourceTracker.Call :=
  [ExpectedSourceTracker.Call.OnFrameDelivered t0 frame0,
   ExpectedSourceTracker.Call.OnFrameDelivered (t0 + 17) frame1]

/-- A sequence in which an entry stamped `0` stands in front of an entry of
the same key stamped `20000`. -/
def staleInFront : List RtpSource :=
  [RtpSource.mk 0 1 RtpSourceType.SSRC none 0, RtpSource.mk 20000 1 RtpSourceType.SSRC none 0]

/-- The frame `frame0` with another receive time in its packet. -/
def frame0Late : List RtpPacketInfo := [RtpPacketInfo.mk 10 [20, 21] 40 (some 50) 99]

/-! ## The loop of `PruneEntries` -/

namespace ExpectedSourceTracker

theorem mem_setInsert (seen : List SourceKey) (key k : SourceKey) :
    k ∈ (setInsert seen key).1 ↔ k = key ∨ k ∈ seen := by
  unfold setInsert
  by_cases h : key ∈ seen
  · simp only [h, if_true]
    constructor
    · exact Or.inr
    · rintro (rfl | hk)
      · exact h
      · exact hk
  · simp [h]

theorem setInsert_snd (seen : List SourceKey) (key : SourceKey) :
    (setInsert seen key).2 = !decide (key ∈ seen) := by
  unfold setInsert
  by_cases h : key ∈ seen <;> simp [h]

/-- The loop looks at `seen` through membership only. -/
theorem loop_congr (c : Int) (l : List RtpSource) :
    ∀ s s' : List SourceKey, (∀ k, k ∈ s ↔ k ∈ s') →
      PruneEntries.loop c s l = PruneEntries.loop c s' l := by
  induction l with
  | nil => intro s s' _; rfl
  | cons e l ih =>
    intro s s' h
    have hrec : PruneEntries.loop c (setInsert s (e.source_type, e.source_id)).1 l
        = PruneEntries.loop c (setInsert s' (e.source_type, e.source_id)).1 l := by
      apply ih
      intro k
      rw [mem_setInsert, mem_setInsert, h k]
    simp only [PruneEntries.loop, setInsert_snd, hrec, h (e.source_type, e.source_id)]

/-- One iteration of the loop, with the insertion into `seen` written as a
cons. -/
theorem loop_cons (c : Int) (s : List SourceKey) (e : RtpSource) (l : List RtpSource) :
    PruneEntries.loop c s (e :: l)
      = if e.key ∈ s ∨ e.timestamp_ms < c then PruneEntries.loop c (e.key :: s) l
        else e :: PruneEntries.loop c (e.key :: s) l := by
  have hrec : PruneEntries.loop c (setInsert s e.key).1 l = PruneEntries.loop c (e.key :: s) l := by
    apply loop_congr
    intro k
    rw [mem_setInsert, List.mem_cons]
  have hrec2 : PruneEntries.loop c (setInsert s (e.source_type, e.source_id)).1 l
      = PruneEntries.loop c (e.key :: s) l := hrec
  simp only [PruneEntries.loop, setInsert_snd, hrec2]
  by_cases h1 : (e.source_type, e.source_id) ∈ s <;> by_cases h2 : e.timestamp_ms < c <;>
    simp [RtpSource.key, h1, h2]

@[simp] theorem loop_nil (c : Int) (s : List SourceKey) : PruneEntries.loop c s [] = [] := rfl

theorem loop_sublist (c : Int) (l : List RtpSource) :
    ∀ s, (PruneEntries.loop c s l).Sublist l := by
  induction l with
  | nil => intro s; simp
  | cons e l ih =>
    intro s
    rw [loop_cons]
    split
    · exact (ih _).cons e
    · exact (ih _).cons₂ e

theorem mem_loop (c : Int) (l : List RtpSource) :
    ∀ s x, x ∈ PruneEntries.loop c s l → x ∈ l ∧ x.key ∉ s ∧ c ≤ x.timestamp_ms := by
  induction l with
  | nil => intro s x hx; simp at hx
  | cons e l ih =>
    intro s x hx
    rw [loop_cons] at hx
    split at hx
    · obtain ⟨h1, h2, h3⟩ := ih _ x hx
      exact ⟨List.mem_cons_of_mem _ h1, fun h => h2 (List.mem_cons_of_mem _ h), h3⟩
    · rename_i hk
      rw [List.mem_cons] at hx
      rcases hx with rfl | hx
      · push_neg at hk
        exact ⟨List.mem_cons_self _ _, hk.1, hk.2⟩
      · obtain ⟨h1, h2, h3⟩ := ih _ x hx
        exact ⟨List.mem_cons_of_mem _ h1, fun h => h2 (List.mem_cons_of_mem _ h), h3⟩

theorem loop_keys_nodup (c : Int) (l : List RtpSource) :
    ∀ s, ((PruneEntries.loop c s l).map RtpSource.key).Nodup := by
  induction l with
  | nil => intro s; simp
  | cons e l ih =>
    intro s
    rw [loop_cons]
    split
    · exact ih _
    · rw [List.map_cons, List.nodup_cons]
      refine ⟨?_, ih _⟩
      intro hmem
      obtain ⟨x, hx, hxk⟩ := List.mem_map.1 hmem
      have := (mem_loop c l _ x hx).2.1
      exact this (by rw [hxk]; exact List.mem_cons_self _ _)

theorem loop_append (c : Int) (a b : List RtpSource) :
    ∀ s, PruneEntries.loop c s (a ++ b)
      = PruneEntries.loop c s a ++ PruneEntries.loop c (a.map RtpSource.key ++ s) b := by
  induction a with
  | nil => intro s; simp
  | cons e a ih =>
    intro s
    have hb : PruneEntries.loop c (a.map RtpSource.key ++ e.key :: s) b
        = PruneEntries.loop c ((e :: a).map RtpSource.key ++ s) b := by
      apply loop_congr
      intro k
      simp only [List.map_cons, List.mem_append, List.mem_cons]
      tauto
    rw [List.cons_append, loop_cons, loop_cons, ih, hb]
    split <;> simp

/-- Keys already in `seen` act as a filter on the result. -/
theorem loop_seen_filter (c : Int) (l : List RtpSource) :
    ∀ s s', PruneEntries.loop c (s ++ s') l
      = (PruneEntries.loop c s' l).filter (fun x => decide (x.key ∉ s)) := by
  induction l with
  | nil => intro s s'; simp
  | cons e l ih =>
    intro s s'
    have hrec : PruneEntries.loop c (e.key :: (s ++ s')) l
        = (PruneEntries.loop c (e.key :: s') l).filter (fun x => decide (x.key ∉ s)) := by
      rw [← ih s (e.key :: s')]
      apply loop_congr
      intro k
      simp only [List.mem_append, List.mem_cons]
      tauto
    rw [loop_cons, loop_cons, hrec]
    by_cases h1 : e.key ∈ s' <;> by_cases h2 : e.timestamp_ms < c <;> by_cases h3 : e.key ∈ s <;>
      simp [h1, h2, h3]

theorem loop_seen_filter_nil (c : Int) (l : List RtpSource) (s : List SourceKey) :
    PruneEntries.loop c s l
      = (PruneEntries.loop c [] l).filter (fun x => decide (x.key ∉ s)) := by
  have := loop_seen_filter c l s []
  simpa using this

/-- On a list without duplicate keys the loop is a filter. -/
theorem loop_of_nodup (c : Int) (l : List RtpSource) :
    ∀ s, (l.map RtpSource.key).Nodup →
      PruneEntries.loop c s l
        = l.filter (fun x => decide (x.key ∉ s ∧ c ≤ x.timestamp_ms)) := by
  induction l with
  | nil => intro s _; simp
  | cons e l ih =>
    intro s hnd
    rw [List.map_cons, List.nodup_cons] at hnd
    have hrec : PruneEntries.loop c (e.key :: s) l
        = l.filter (fun x => decide (x.key ∉ s ∧ c ≤ x.timestamp_ms)) := by
      rw [ih _ hnd.2]
      apply List.filter_congr
      intro x hx
      have hne : x.key ≠ e.key := by
        intro h
        exact hnd.1 (h ▸ List.mem_map_of_mem _ hx)
      simp [hne]
    rw [loop_cons, hrec]
    by_cases h1 : e.key ∈ s <;> by_cases h2 : e.timestamp_ms < c <;>
      simp [h1, h2, List.filter_cons, not_le.2, not_lt.1]

/-- A later pass with a later cutoff and a larger `seen` absorbs an earlier
pass. -/
theorem loop_loop (c1 c2 : Int) (hc : c1 ≤ c2) (l : List RtpSource) :
    ∀ s1 s2 : List SourceKey, (∀ k, k ∈ s1 → k ∈ s2) →
      PruneEntries.loop c2 s2 (PruneEntries.loop c1 s1 l) = PruneEntries.loop c2 s2 l := by
  induction l with
  | nil => intro s1 s2 _; simp
  | cons e l ih =>
    intro s1 s2 hs
    have hsub : ∀ k, k ∈ e.key :: s1 → k ∈ e.key :: s2 := by
      intro k hk
      rcases List.mem_cons.1 hk with rfl | hk
      · exact List.mem_cons_self _ _
      · exact List.mem_cons_of_mem _ (hs k hk)
    have hrec := ih (e.key :: s1) (e.key :: s2) hsub
    have hdrop : PruneEntries.loop c2 s2 (PruneEntries.loop c1 (e.key :: s1) l)
        = PruneEntries.loop c2 (e.key :: s2) l := by
      rw [← hrec]
      rw [loop_seen_filter_nil c2 _ s2, loop_seen_filter_nil c2 _ (e.key :: s2)]
      apply List.filter_congr
      intro x hx
      have hx1 := (mem_loop c2 _ [] x hx).1
      have hx2 := (mem_loop c1 l _ x hx1).2.1
      have hne : x.key ≠ e.key := fun h => hx2 (h ▸ List.mem_cons_self _ _)
      simp [hne]
    rw [loop_cons c1, loop_cons c2 s2 e l]
    by_cases h1 : e.key ∈ s1 ∨ e.timestamp_ms < c1
    · have h2 : e.key ∈ s2 ∨ e.timestamp_ms < c2 := by
        rcases h1 with h | h
        · exact Or.inl (hs _ h)
        · exact Or.inr (lt_of_lt_of_le h hc)
      rw [if_pos h1, if_pos h2, hdrop]
    · rw [if_neg h1, loop_cons c2 s2 e, hrec]

/-- The entries with a given key that survive the loop: the first entry of
the list with that key, if the key is new and the entry is not too old. -/
theorem loop_filter_key (c : Int) (k : SourceKey) (l : List RtpSource) :
    ∀ s, (PruneEntries.loop c s l).filter (fun x => decide (x.key = k))
      = if k ∈ s then []
        else match l.find? (fun x => decide (x.key = k)) with
          | some e => if c ≤ e.timestamp_ms then [e] else []
          | none => [] := by
  induction l with
  | nil => intro s; simp
  | cons e l ih =>
    intro s
    rw [loop_cons]
    by_cases hk : e.key = k
    · have hrec : (PruneEntries.loop c (e.key :: s) l).filter (fun x => decide (x.key = k)) = [] := by
        rw [ih]; simp [hk]
      subst hk
      by_cases h1 : e.key ∈ s <;> by_cases h2 : e.timestamp_ms < c <;>
        simp [h1, h2, hrec, List.find?_cons, not_le.2, not_lt.1]
    · have hk2 : ¬ k = e.key := fun h => hk h.symm
      have hrec : (PruneEntries.loop c (e.key :: s) l).filter (fun x => decide (x.key = k))
          = if k ∈ s then []
            else match l.find? (fun x => decide (x.key = k)) with
              | some e => if c ≤ e.timestamp_ms then [e] else []
              | none => [] := by
        rw [ih]; simp [hk2]
      split <;> simp [hk, hrec, List.find?_cons]

/-! ## Insertions of `OnFrameDelivered` -/

theorem foldl_emplace_front {α : Type} (g : α → RtpSource) (l : List α) :
    ∀ init : List RtpSource,
      l.foldl (fun entries_ x => g x :: entries_) init = (l.map g).reverse ++ init := by
  induction l with
  | nil => intro init; rfl
  | cons x l ih => intro init; simp [List.foldl_cons, ih]

theorem emplaceFrame_eq (now_ms : Int) (packet_infos : List RtpPacketInfo) :
    ∀ entries_, emplaceFrame now_ms entries_ packet_infos
      = (listing now_ms packet_infos).reverse ++ entries_ := by
  induction packet_infos with
  | nil => intro entries_; simp [emplaceFrame, listing]
  | cons p f ih =>
    intro entries_
    have h := ih (emplacePacket now_ms entries_ p)
    unfold emplaceFrame at h ⊢
    rw [List.foldl_cons, h]
    simp [emplacePacket, foldl_emplace_front, listing, List.flatMap_cons]

theorem listing_keys (now_ms : Int) (packet_infos : List RtpPacketInfo) :
    (listing now_ms packet_infos).map RtpSource.key = frameKeys packet_infos := by
  induction packet_infos with
  | nil => rfl
  | cons p f ih =>
    unfold listing frameKeys at ih ⊢
    rw [List.flatMap_cons, List.flatMap_cons, List.map_append, ih]
    simp [packetKeys, RtpSource.key, Function.comp_def]

theorem listing_timestamp (now_ms : Int) (packet_infos : List RtpPacketInfo) :
    ∀ x ∈ listing now_ms packet_infos, x.timestamp_ms = now_ms := by
  intro x hx
  unfold listing at hx
  rw [List.mem_flatMap] at hx
  obtain ⟨p, _, hx⟩ := hx
  rw [List.mem_append, List.mem_map, List.mem_singleton] at hx
  rcases hx with ⟨c, _, rfl⟩ | rfl <;> rfl

theorem listing_append (now_ms : Int) (f g : List RtpPacketInfo) :
    listing now_ms (f ++ g) = listing now_ms f ++ listing now_ms g := by
  simp [listing, List.flatMap_append]

theorem frameKeys_append (f g : List RtpPacketInfo) :
    frameKeys (f ++ g) = frameKeys f ++ frameKeys g := by
  simp [frameKeys, List.flatMap_append]

/-! ## `PruneEntries` as a whole -/

theorem PruneEntries_sublist (l : List RtpSource) (now_ms : Int) :
    (PruneEntries l now_ms).Sublist l :=
  loop_sublist _ l []

theorem PruneEntries_keys_nodup (l : List RtpSource) (now_ms : Int) :
    ((PruneEntries l now_ms).map RtpSource.key).Nodup :=
  loop_keys_nodup _ l []

theorem mem_PruneEntries (l : List RtpSource) (now_ms : Int) (x : RtpSource)
    (hx : x ∈ PruneEntries l now_ms) : x ∈ l ∧ now_ms - 10000 ≤ x.timestamp_ms := by
  have := mem_loop _ l [] x hx
  exact ⟨this.1, this.2.2⟩

theorem PruneEntries_PruneEntries (l : List RtpSource) (n1 n2 : Int) (h : n1 ≤ n2) :
    PruneEntries (PruneEntries l n1) n2 = PruneEntries l n2 := by
  unfold PruneEntries
  exact loop_loop _ _ (by omega) l [] [] (fun _ hk => hk)

theorem PruneEntries_append_PruneEntries (a l : List RtpSource) (n1 n2 : Int) (h : n1 ≤ n2) :
    PruneEntries (a ++ PruneEntries l n1) n2 = PruneEntries (a ++ l) n2 := by
  unfold PruneEntries
  simp only
  rw [loop_append, loop_append]
  congr 1
  exact loop_loop _ _ (by omega) l [] _ (fun _ hk => by simp at hk)

theorem PruneEntries_append_congr (a l l' : List RtpSource) (now_ms : Int)
    (h : PruneEntries l now_ms = PruneEntries l' now_ms) :
    PruneEntries (a ++ l) now_ms = PruneEntries (a ++ l') now_ms := by
  unfold PruneEntries at h ⊢
  simp only at h ⊢
  rw [loop_append, loop_append, loop_seen_filter_nil _ l, loop_seen_filter_nil _ l', h]

theorem PruneEntries_of_nodup (l : List RtpSource) (now_ms : Int)
    (h : (l.map RtpSource.key).Nodup) :
    PruneEntries l now_ms = l.filter (fun x => decide (now_ms - 10000 ≤ x.timestamp_ms)) := by
  unfold PruneEntries
  simp only
  rw [loop_of_nodup _ l [] h]
  simp

theorem PruneEntries_filter_key (l : List RtpSource) (now_ms : Int) (k : SourceKey) :
    (PruneEntries l now_ms).filter (fun x => decide (x.key = k))
      = match l.find? (fun x => decide (x.key = k)) with
        | some e => if now_ms - 10000 ≤ e.timestamp_ms then [e] else []
        | none => [] := by
  unfold PruneEntries
  simp only
  rw [loop_filter_key]
  simp

/-! ## Call sequences -/

theorem run_snoc (entries_ : List RtpSource) (calls : List Call) (call : Call) :
    run entries_ (calls ++ [call]) = step (run entries_ calls) call := by
  simp [run, List.foldl_append]

theorem run_cons (entries_ : List RtpSource) (call : Call) (calls : List Call) :
    run entries_ (call :: calls) = run (step entries_ call) calls := rfl

theorem pushed_snoc_deliver (calls : List Call) (now_ms : Int) (f : List RtpPacketInfo) :
    pushed (calls ++ [Call.OnFrameDelivered now_ms f])
      = (listing now_ms f).reverse ++ pushed calls := by
  simp [pushed, List.foldl_append, emplaceFrame_eq]

theorem pushed_snoc_query (calls : List Call) (now_ms : Int) :
    pushed (calls ++ [Call.GetSources now_ms]) = pushed calls := by
  simp [pushed, List.foldl_append]

theorem latestDelivery_snoc_deliver (k : SourceKey) (calls : List Call) (now_ms : Int)
    (f : List RtpPacketInfo) :
    latestDelivery k (calls ++ [Call.OnFrameDelivered now_ms f])
      = if k ∈ frameKeys f then some now_ms else latestDelivery k calls := by
  simp [latestDelivery, List.foldl_append]

theorem latestDelivery_snoc_query (k : SourceKey) (calls : List Call) (now_ms : Int) :
    latestDelivery k (calls ++ [Call.GetSources now_ms]) = latestDelivery k calls := by
  simp [latestDelivery, List.foldl_append]

/-- Every stored list is the result of a prune pass, or is empty. -/
theorem run_keys_nodup (calls : List Call) : ((run [] calls).map RtpSource.key).Nodup := by
  induction calls using List.reverseRecOn with
  | nil => simp [run]
  | append_singleton calls call _ =>
    rw [run_snoc]
    cases call with
    | OnFrameDelivered now_ms f => exact PruneEntries_keys_nodup _ _
    | GetSources now_ms => exact PruneEntries_keys_nodup _ _

/-- Under a non-decreasing clock, pruning the stored list at a time not
before the last call gives what pruning the never-pruned list gives. -/
theorem PruneEntries_run (calls : List Call)
    (hmono : (clockReadings calls).Pairwise (fun a b => a ≤ b)) :
    ∀ T : Int, (∀ t ∈ clockReadings calls, t ≤ T) →
      PruneEntries (run [] calls) T = PruneEntries (pushed calls) T := by
  induction calls using List.reverseRecOn with
  | nil => intro T _; rfl
  | append_singleton calls call ih =>
    intro T hT
    unfold clockReadings at hmono hT ih
    rw [List.map_append, List.pairwise_append] at hmono
    have hlast : call.now_ms ≤ T := hT _ (by simp)
    have hprev : ∀ t ∈ calls.map Call.now_ms, t ≤ T := by
      intro t ht
      exact le_trans (hmono.2.2 t ht call.now_ms (by simp)) hlast
    have ih := ih hmono.1 T hprev
    rw [run_snoc]
    cases call with
    | OnFrameDelivered now_ms f =>
      rw [pushed_snoc_deliver]
      show PruneEntries (PruneEntries (emplaceFrame now_ms (run [] calls) f) now_ms) T = _
      have hlast : now_ms ≤ T := hlast
      rw [PruneEntries_PruneEntries _ _ _ hlast, emplaceFrame_eq]
      exact PruneEntries_append_congr _ _ _ _ ih
    | GetSources now_ms =>
      rw [pushed_snoc_query]
      show PruneEntries (PruneEntries (run [] calls) now_ms) T = _
      have hlast : now_ms ≤ T := hlast
      rw [PruneEntries_PruneEntries _ _ _ hlast, ih]

/-- Under a non-decreasing clock the never-pruned list is ordered by
timestamp, newest first, and holds only clock readings of the calls. -/
theorem pushed_sorted (calls : List Call)
    (hmono : (clockReadings calls).Pairwise (fun a b => a ≤ b)) :
    (pushed calls).Pairwise (fun a b => b.timestamp_ms ≤ a.timestamp_ms) ∧
      ∀ x ∈ pushed calls, x.timestamp_ms ∈ clockReadings calls := by
  induction calls using List.reverseRecOn with
  | nil => simp [pushed]
  | append_singleton calls call ih =>
    unfold clockReadings at hmono ih ⊢
    rw [List.map_append, List.pairwise_append] at hmono
    have ih := ih hmono.1
    cases call with
    | OnFrameDelivered now_ms f =>
      rw [pushed_snoc_deliver]
      have hts : ∀ x ∈ (listing now_ms f).reverse, x.timestamp_ms = now_ms := by
        intro x hx
        exact listing_timestamp now_ms f x (List.mem_reverse.1 hx)
      constructor
      · rw [List.pairwise_append]
        refine ⟨?_, ih.1, ?_⟩
        · apply List.pairwise_of_forall_mem_list
          intro a ha b hb
          rw [hts a ha, hts b hb]
        · intro a ha b hb
          rw [hts a ha]
          exact hmono.2.2 _ (ih.2 b hb) _ (by simp [Call.now_ms])
      · intro x hx
        rw [List.mem_append] at hx
        rcases hx with hx | hx
        · rw [hts x hx]; simp [Call.now_ms]
        · rw [List.map_append, List.mem_append]
          exact Or.inl (ih.2 x hx)
    | GetSources now_ms =>
      rw [pushed_snoc_query]
      refine ⟨ih.1, ?_⟩
      intro x hx
      rw [List.map_append, List.mem_append]
      exact Or.inl (ih.2 x hx)

/-- The timestamp of the first never-pruned entry with a key is the time of
the latest delivery of the key. -/
theorem find_pushed (k : SourceKey) (calls : List Call) :
    ((pushed calls).find? (fun x => decide (x.key = k))).map RtpSource.timestamp_ms
      = latestDelivery k calls := by
  induction calls using List.reverseRecOn with
  | nil => rfl
  | append_singleton calls call ih =>
    cases call with
    | OnFrameDelivered now_ms f =>
      rw [pushed_snoc_deliver, latestDelivery_snoc_deliver, List.find?_append]
      by_cases hk : k ∈ frameKeys f
      · rw [if_pos hk]
        rw [← listing_keys now_ms f, List.mem_map] at hk
        obtain ⟨x, hx, hxk⟩ := hk
        cases hfind : (listing now_ms f).reverse.find? (fun x => decide (x.key = k)) with
        | none =>
          rw [List.find?_eq_none] at hfind
          exact absurd hxk (by simpa using hfind x (List.mem_reverse.2 hx))
        | some y =>
          have hy := List.mem_of_find?_eq_some hfind
          simp [listing_timestamp now_ms f y (List.mem_reverse.1 hy)]
      · rw [if_neg hk, ← ih]
        have hnone : (listing now_ms f).reverse.find? (fun x => decide (x.key = k)) = none := by
          rw [List.find?_eq_none]
          intro x hx hxk
          apply hk
          rw [← listing_keys now_ms f, List.mem_map]
          exact ⟨x, List.mem_reverse.1 hx, by simpa using hxk⟩
        rw [hnone]
        simp
    | GetSources now_ms =>
      rw [pushed_snoc_query, latestDelivery_snoc_query, ih]

theorem clock_split (calls : List Call) (T : Int)
    (hmono : (clockReadings calls ++ [T]).Pairwise (fun a b => a ≤ b)) :
    (clockReadings calls).Pairwise (fun a b => a ≤ b) ∧ ∀ t ∈ clockReadings calls, t ≤ T := by
  rw [List.pairwise_append] at hmono
  exact ⟨hmono.1, fun t ht => hmono.2.2 t ht T (List.mem_singleton.2 rfl)⟩

/-- Under a non-decreasing clock a query returns the prune of the
never-pruned list. -/
theorem GetSources_run (calls : List Call) (T : Int)
    (hmono : (clockReadings calls ++ [T]).Pairwise (fun a b => a ≤ b)) :
    (GetSources (run [] calls) T).1 = PruneEntries (pushed calls) T := by
  obtain ⟨h1, h2⟩ := clock_split calls T hmono
  exact PruneEntries_run calls h1 T h2

/-- An entry survives `PruneEntries` exactly when it is the first entry of
the list with its key and is not older than the cutoff. -/
theorem mem_PruneEntries_iff (l : List RtpSource) (now_ms : Int) (k : SourceKey) (x : RtpSource) :
    (x ∈ PruneEntries l now_ms ∧ x.key = k)
      ↔ (l.find? (fun y => decide (y.key = k)) = some x ∧ now_ms - 10000 ≤ x.timestamp_ms) := by
  have h := PruneEntries_filter_key l now_ms k
  have hmem : (x ∈ PruneEntries l now_ms ∧ x.key = k)
      ↔ x ∈ (PruneEntries l now_ms).filter (fun y => decide (y.key = k)) := by
    simp [List.mem_filter]
  rw [hmem, h]
  cases hfind : l.find? (fun y => decide (y.key = k)) with
  | none => simp
  | some e =>
    by_cases hc : now_ms - 10000 ≤ e.timestamp_ms
    · simp only [hc, if_true, List.mem_singleton, Option.some.injEq]
      constructor
      · rintro rfl; exact ⟨rfl, hc⟩
      · rintro ⟨rfl, _⟩; rfl
    · simp only [hc, if_false, List.not_mem_nil, Option.some.injEq, false_iff]
      rintro ⟨rfl, h2⟩
      exact hc h2

/-! ## One delivery -/

theorem lastPacketWith_snoc (k : SourceKey) (f : List RtpPacketInfo) (p : RtpPacketInfo) :
    lastPacketWith k (f ++ [p]) = if k ∈ packetKeys p then some p else lastPacketWith k f := by
  simp [lastPacketWith, List.foldl_append]

theorem listing_singleton_shape (now_ms : Int) (p : RtpPacketInfo) (x : RtpSource)
    (hx : x ∈ listing now_ms [p]) :
    x = RtpSource.mk now_ms x.key.2 x.key.1 p.audio_level p.rtp_timestamp := by
  simp only [listing, List.flatMap_cons, List.flatMap_nil, List.append_nil, List.mem_append,
    List.mem_map, List.mem_singleton] at hx
  rcases hx with ⟨c, _, rfl⟩ | rfl <;> rfl

theorem frameKeys_singleton (p : RtpPacketInfo) : frameKeys [p] = packetKeys p := by
  simp [frameKeys]

/-- The first inserted entry with a key that occurs in the frame comes from
the last packet carrying the key. -/
theorem find_listing (now_ms : Int) (k : SourceKey) (f : List RtpPacketInfo) :
    k ∈ frameKeys f → ∃ p, lastPacketWith k f = some p ∧
      (listing now_ms f).reverse.find? (fun x => decide (x.key = k))
        = some (RtpSource.mk now_ms k.2 k.1 p.audio_level p.rtp_timestamp) := by
  induction f using List.reverseRecOn with
  | nil => intro hk; simp [frameKeys] at hk
  | append_singleton f p ih =>
    intro hk
    rw [lastPacketWith_snoc, listing_append, List.reverse_append, List.find?_append]
    by_cases hp : k ∈ packetKeys p
    · refine ⟨p, if_pos hp, ?_⟩
      have hp2 := hp
      rw [← frameKeys_singleton, ← listing_keys now_ms [p], List.mem_map] at hp2
      obtain ⟨x, hx, hxk⟩ := hp2
      cases hfind : (listing now_ms [p]).reverse.find? (fun x => decide (x.key = k)) with
      | none =>
        rw [List.find?_eq_none] at hfind
        exact absurd hxk (by simpa using hfind x (List.mem_reverse.2 hx))
      | some y =>
        have hy := List.mem_reverse.1 (List.mem_of_find?_eq_some hfind)
        have hyk : y.key = k := by simpa using List.find?_some hfind
        have hshape := listing_singleton_shape now_ms p y hy
        rw [hyk] at hshape
        simp [hshape]
    · rw [frameKeys_append, List.mem_append, frameKeys_singleton] at hk
      have hkf : k ∈ frameKeys f := hk.resolve_right hp
      obtain ⟨q, hq, hfq⟩ := ih hkf
      refine ⟨q, by rw [if_neg hp, hq], ?_⟩
      have hnone : (listing now_ms [p]).reverse.find? (fun x => decide (x.key = k)) = none := by
        rw [List.find?_eq_none]
        intro x hx hxk
        apply hp
        rw [← frameKeys_singleton, ← listing_keys now_ms [p], List.mem_map]
        exact ⟨x, List.mem_reverse.1 hx, by simpa using hxk⟩
      rw [hnone, hfq]
      rfl

/-- A query right after a delivery, at the same clock reading, returns the
prune of the list with the insertions in front. -/
theorem GetSources_OnFrameDelivered (entries_ : List RtpSource) (now_ms : Int)
    (f : List RtpPacketInfo) :
    (GetSources (OnFrameDelivered entries_ now_ms f) now_ms).1
      = PruneEntries ((listing now_ms f).reverse ++ entries_) now_ms := by
  show PruneEntries (PruneEntries (emplaceFrame now_ms entries_ f) now_ms) now_ms = _
  rw [PruneEntries_PruneEntries _ _ _ (le_refl _), emplaceFrame_eq]

theorem OnFrameDelivered_eq (entries_ : List RtpSource) (now_ms : Int)
    (f : List RtpPacketInfo) :
    OnFrameDelivered entries_ now_ms f
      = PruneEntries ((listing now_ms f).reverse ++ entries_) now_ms := by
  show PruneEntries (emplaceFrame now_ms entries_ f) now_ms = _
  rw [emplaceFrame_eq]

theorem mem_reverse_listing_keys (now_ms : Int) (f : List RtpPacketInfo) (k : SourceKey) :
    k ∈ (listing now_ms f).reverse.map RtpSource.key ↔ k ∈ frameKeys f := by
  rw [List.map_reverse, List.mem_reverse, listing_keys]

/-- A key of the delivered frame is returned by a query at the delivery
time, with the delivery time as timestamp. -/
theorem GetSources_OnFrameDelivered_mem (entries_ : List RtpSource) (now_ms : Int)
    (f : List RtpPacketInfo) (k : SourceKey) (hk : k ∈ frameKeys f) :
    ∃ e ∈ (GetSources (OnFrameDelivered entries_ now_ms f) now_ms).1,
      e.key = k ∧ e.timestamp_ms = now_ms := by
  obtain ⟨p, _, hfind⟩ := find_listing now_ms k f hk
  rw [GetSources_OnFrameDelivered]
  have h := (mem_PruneEntries_iff ((listing now_ms f).reverse ++ entries_) now_ms k
    (RtpSource.mk now_ms k.2 k.1 p.audio_level p.rtp_timestamp)).2
    ⟨by rw [List.find?_append, hfind]; rfl, by simp⟩
  exact ⟨_, h.1, h.2, rfl⟩

/-- Under a non-decreasing clock, a key whose latest delivery is inside the
window is returned, stamped with the time of that delivery. -/
theorem GetSources_of_latestDelivery (calls : List Call) (T : Int)
    (hmono : (clockReadings calls ++ [T]).Pairwise (fun a b => a ≤ b)) (k : SourceKey) (t : Int)
    (ht : latestDelivery k calls = some t) (hge : T - 10000 ≤ t) :
    ∃ e ∈ (GetSources (run [] calls) T).1, e.key = k ∧ e.timestamp_ms = t := by
  rw [GetSources_run calls T hmono]
  have hfind := find_pushed k calls
  rw [ht] at hfind
  cases hf : (pushed calls).find? (fun x => decide (x.key = k)) with
  | none => rw [hf] at hfind; simp at hfind
  | some x =>
    rw [hf] at hfind
    have hxt : x.timestamp_ms = t := by simpa using hfind
    have h := (mem_PruneEntries_iff (pushed calls) T k x).2 ⟨hf, by omega⟩
    exact ⟨x, h.1, h.2, hxt⟩

/-- What a delivery stores: the surviving insertions, then the old entries
that are neither superseded nor expired, when the old list has no duplicate
key. -/
theorem OnFrameDelivered_split (entries_ : List RtpSource) (now_ms : Int)
    (f : List RtpPacketInfo) (hnd : (entries_.map RtpSource.key).Nodup) :
    OnFrameDelivered entries_ now_ms f
      = OnFrameDelivered [] now_ms f ++
        entries_.filter
          (fun e => decide (e.key ∉ frameKeys f ∧ now_ms - 10000 ≤ e.timestamp_ms)) := by
  rw [OnFrameDelivered_eq, OnFrameDelivered_eq, List.append_nil]
  unfold PruneEntries
  simp only
  rw [loop_append, List.append_nil, loop_of_nodup _ _ _ hnd]
  congr 1
  apply List.filter_congr
  intro x _
  simp only [mem_reverse_listing_keys]

theorem mem_OnFrameDelivered_nil (now_ms : Int) (f : List RtpPacketInfo) (x : RtpSource)
    (hx : x ∈ OnFrameDelivered [] now_ms f) : x ∈ listing now_ms f := by
  rw [OnFrameDelivered_eq, List.append_nil] at hx
  exact List.mem_reverse.1 (mem_PruneEntries _ _ _ hx).1

/-- A delivery, or a query, at a time not before `now_ms` cannot tell a list
from its prune at `now_ms`. -/
theorem step_PruneEntries (entries_ : List RtpSource) (now_ms : Int) (call : Call)
    (h : now_ms ≤ call.now_ms) :
    step (PruneEntries entries_ now_ms) call = step entries_ call := by
  cases call with
  | OnFrameDelivered t f =>
    show OnFrameDelivered _ t f = OnFrameDelivered _ t f
    rw [OnFrameDelivered_eq, OnFrameDelivered_eq]
    exact PruneEntries_append_PruneEntries _ _ _ _ h
  | GetSources t =>
    exact PruneEntries_PruneEntries _ _ _ h

/-! ## The production design against the reference -/

theorem loop_eq_nil_of_old (c : Int) (l : List RtpSource) :
    ∀ s, (∀ x ∈ l, x.timestamp_ms < c) → PruneEntries.loop c s l = [] := by
  induction l with
  | nil => intro s _; rfl
  | cons e l ih =>
    intro s h
    rw [loop_cons, if_pos (Or.inr (h e (List.mem_cons_self _ _)))]
    exact ih _ (fun x hx => h x (List.mem_cons_of_mem _ hx))

theorem production_loop_eq_nil_of_old (c : Int) (l : List RtpSource) :
    ∀ s, (∀ x ∈ l, x.timestamp_ms < c) → SourceTracker.PruneEntries.loop c s l = [] := by
  induction l with
  | nil => intro s _; rfl
  | cons e l ih =>
    intro s h
    have he := h e (List.mem_cons_self _ _)
    have hl := ih s (fun x hx => h x (List.mem_cons_of_mem _ hx))
    simp [SourceTracker.PruneEntries.loop, he, hl]

/-- The test `OnFrameDeliveredRecordsSources` (lines 220-243), run on the
production design. -/
theorem production_OnFrameDeliveredRecordsSources :
    (SourceTracker.GetSources (SourceTracker.OnFrameDelivered [] t0 frame0) t0).1
      = [RtpSource.mk t0 10 RtpSourceType.SSRC (some 50) 40,
         RtpSource.mk t0 21 RtpSourceType.CSRC (some 50) 40,
         RtpSource.mk t0 20 RtpSourceType.CSRC (some 50) 40] := by
  decide

/-- The test `OnFrameDeliveredUpdatesSources` (lines 245-284), run on the
production design. -/
theorem production_OnFrameDeliveredUpdatesSources :
    (SourceTracker.GetSources
        (SourceTracker.OnFrameDelivered (SourceTracker.OnFrameDelivered [] t0 frame0)
          (t0 + 17) frame1) (t0 + 17)).1
      = [RtpSource.mk (t0 + 17) 10 RtpSourceType.SSRC none 41,
         RtpSource.mk (t0 + 17) 22 RtpSourceType.CSRC none 41,
         RtpSource.mk (t0 + 17) 20 RtpSourceType.CSRC none 41,
         RtpSource.mk t0 21 RtpSourceType.CSRC (some 50) 40] := by
  decide

/-- The test `TimedOutSourcesAreRemoved` (lines 286-323), run on the
production design. -/
theorem production_TimedOutSourcesAreRemoved :
    (SourceTracker.GetSources
        (SourceTracker.OnFrameDelivered (SourceTracker.OnFrameDelivered [] t0 frame0)
          (t0 + 17) frame1) (t0 + 17 + kTimeoutMs)).1
      = [RtpSource.mk (t0 + 17) 10 RtpSourceType.SSRC none 41,
         RtpSource.mk (t0 + 17) 22 RtpSourceType.CSRC none 41,
         RtpSource.mk (t0 + 17) 20 RtpSourceType.CSRC none 41] := by
  decide

/-- On a list ordered by timestamp, newest first, marking a key seen only
when its entry is kept gives the same result as marking it always. -/
theorem production_loop_eq (c : Int) (l : List RtpSource) :
    ∀ s, l.Pairwise (fun a b => b.timestamp_ms ≤ a.timestamp_ms) →
      SourceTracker.PruneEntries.loop c s l = PruneEntries.loop c s l := by
  induction l with
  | nil => intro s _; rfl
  | cons e l ih =>
    intro s hsorted
    rw [List.pairwise_cons] at hsorted
    rw [loop_cons]
    by_cases h1 : e.key ∈ s
    · have hcongr : PruneEntries.loop c (e.key :: s) l = PruneEntries.loop c s l := by
        apply loop_congr
        intro k
        rw [List.mem_cons]
        constructor
        · rintro (rfl | hk)
          · exact h1
          · exact hk
        · exact Or.inr
      simp [SourceTracker.PruneEntries.loop, h1, hcongr, ih s hsorted.2]
    · by_cases h2 : e.timestamp_ms < c
      · have hold : ∀ x ∈ l, x.timestamp_ms < c :=
          fun x hx => lt_of_le_of_lt (hsorted.1 x hx) h2
        simp [SourceTracker.PruneEntries.loop, h1, h2, loop_eq_nil_of_old c l _ hold,
          production_loop_eq_nil_of_old c l _ hold]
      · simp [SourceTracker.PruneEntries.loop, h1, h2, ih (e.key :: s) hsorted.2]

theorem production_PruneEntries_eq (l : List RtpSource) (now_ms : Int)
    (hsorted : l.Pairwise (fun a b => b.timestamp_ms ≤ a.timestamp_ms)) :
    SourceTracker.PruneEntries l now_ms = PruneEntries l now_ms :=
  production_loop_eq _ l [] hsorted

theorem production_insert_eq (now_ms : Int) (f : List RtpPacketInfo) :
    ∀ entries_, f.foldl (SourceTracker.insertPacket now_ms) entries_
      = emplaceFrame now_ms entries_ f := by
  intro entries_
  rfl

/-- The list after the insertions of a delivery is ordered by timestamp,
newest first, when the old list is and holds nothing newer than the clock. -/
theorem emplaceFrame_sorted (entries_ : List RtpSource) (now_ms : Int) (f : List RtpPacketInfo)
    (hsorted : entries_.Pairwise (fun a b => b.timestamp_ms ≤ a.timestamp_ms))
    (hle : ∀ x ∈ entries_, x.timestamp_ms ≤ now_ms) :
    (emplaceFrame now_ms entries_ f).Pairwise (fun a b => b.timestamp_ms ≤ a.timestamp_ms) ∧
      ∀ x ∈ emplaceFrame now_ms entries_ f, x.timestamp_ms ≤ now_ms := by
  rw [emplaceFrame_eq]
  have hts : ∀ x ∈ (listing now_ms f).reverse, x.timestamp_ms = now_ms :=
    fun x hx => listing_timestamp now_ms f x (List.mem_reverse.1 hx)
  constructor
  · rw [List.pairwise_append]
    refine ⟨?_, hsorted, ?_⟩
    · apply List.pairwise_of_forall_mem_list
      intro a ha b hb
      rw [hts a ha, hts b hb]
    · intro a ha b hb
      rw [hts a ha]
      exact hle b hb
  · intro x hx
    rw [List.mem_append] at hx
    rcases hx with hx | hx
    · exact le_of_eq (hts x hx)
    · exact hle x hx

/-- From a list ordered by timestamp that holds nothing newer than the
clock, under non-negative clock advances, the production design and the
reference return the same snapshots. -/
theorem snapshots_eq (iterations : List (List RtpPacketInfo × Int)) :
    ∀ (now_ms : Int) (entries_ : List RtpSource),
      entries_.Pairwise (fun a b => b.timestamp_ms ≤ a.timestamp_ms) →
      (∀ x ∈ entries_, x.timestamp_ms ≤ now_ms) →
      (∀ it ∈ iterations, 0 ≤ it.2) →
      actualSnapshots now_ms entries_ iterations = expectedSnapshots now_ms entries_ iterations := by
  induction iterations with
  | nil => intro _ _ _ _ _; rfl
  | cons it iterations ih =>
    intro now_ms entries_ hsorted hle hadv
    obtain ⟨f, advance⟩ := it
    have h0 : 0 ≤ advance := hadv (f, advance) (List.mem_cons_self _ _)
    have hins := emplaceFrame_sorted entries_ now_ms f hsorted hle
    have hsub1 := PruneEntries_sublist (emplaceFrame now_ms entries_ f) now_ms
    have hdel : SourceTracker.OnFrameDelivered entries_ now_ms f
        = OnFrameDelivered entries_ now_ms f := by
      unfold SourceTracker.OnFrameDelivered OnFrameDelivered
      rw [production_insert_eq, production_PruneEntries_eq _ _ hins.1]
    have hs1 : (OnFrameDelivered entries_ now_ms f).Pairwise
        (fun a b => b.timestamp_ms ≤ a.timestamp_ms) := hins.1.sublist hsub1
    have hget : SourceTracker.PruneEntries (OnFrameDelivered entries_ now_ms f) (now_ms + advance)
        = PruneEntries (OnFrameDelivered entries_ now_ms f) (now_ms + advance) :=
      production_PruneEntries_eq _ _ hs1
    have hsub2 := PruneEntries_sublist (OnFrameDelivered entries_ now_ms f) (now_ms + advance)
    have hrec := ih (now_ms + advance)
      (PruneEntries (OnFrameDelivered entries_ now_ms f) (now_ms + advance))
      (hs1.sublist hsub2)
      (fun x hx => by
        have := hins.2 x (hsub1.subset (hsub2.subset hx))
        omega)
      (fun it hit => hadv it (List.mem_cons_of_mem _ hit))
    simp only [actualSnapshots, expectedSnapshots, SourceTracker.GetSources, GetSources, hdel,
      hget, hrec]

/-! ## The code against the specification's wording -/

/-- Where no entry older than the cutoff stands in front of an entry of the
same key that is not, marking a key seen only when its entry is kept selects
what the loop of the code selects. -/
theorem prunePolicy_scan_eq (c : Int) (l : List RtpSource) :
    ∀ s, l.Pairwise
        (fun a b => a.key = b.key → a.timestamp_ms < c → b.timestamp_ms < c) →
      prunePolicy.scan c s l = PruneEntries.loop c s l := by
  induction l with
  | nil => intro s _; rfl
  | cons e l ih =>
    intro s hpw
    rw [List.pairwise_cons] at hpw
    rw [loop_cons]
    have hk : (e.source_type, e.source_id) = e.key := rfl
    by_cases h1 : e.key ∈ s
    · have hcongr : PruneEntries.loop c (e.key :: s) l = PruneEntries.loop c s l := by
        apply loop_congr
        intro k
        rw [List.mem_cons]
        constructor
        · rintro (rfl | hk)
          · exact h1
          · exact hk
        · exact Or.inr
      simp [prunePolicy.scan, hk, h1, hcongr, ih s hpw.2]
    · by_cases h2 : e.timestamp_ms < c
      · have hsame : PruneEntries.loop c (e.key :: s) l = PruneEntries.loop c s l := by
          have h := loop_seen_filter c l [e.key] s
          rw [List.singleton_append] at h
          rw [h, List.filter_eq_self]
          intro x hx
          have hx2 := mem_loop c l s x hx
          have hne : x.key ≠ e.key := by
            intro heq
            have := hpw.1 x hx2.1 heq.symm h2
            omega
          simp [hne]
        simp [prunePolicy.scan, hk, h1, h2, hsame, ih s hpw.2]
      · simp [prunePolicy.scan, hk, h1, h2, ih (e.key :: s) hpw.2]

theorem prunePolicy_scan_sublist (c : Int) (l : List RtpSource) :
    ∀ s, (prunePolicy.scan c s l).Sublist l := by
  induction l with
  | nil => intro s; simp [prunePolicy.scan]
  | cons e l ih =>
    intro s
    unfold prunePolicy.scan
    split
    · exact (ih _).cons e
    · split
      · exact (ih _).cons e
      · exact (ih _).cons₂ e

/-- A prune pass at an earlier time after a prune pass changes nothing. -/
theorem PruneEntries_PruneEntries_of_ge (l : List RtpSource) (n1 n2 : Int) (h : n2 ≤ n1) :
    PruneEntries (PruneEntries l n1) n2 = PruneEntries l n1 := by
  rw [PruneEntries_of_nodup _ _ (PruneEntries_keys_nodup l n1), List.filter_eq_self]
  intro x hx
  have := (mem_PruneEntries l n1 x hx).2
  simp only [decide_eq_true_eq]
  omega

/-- The fate of one entry: what is in front of it is pruned as if alone, the
entry goes when an entry in front has its key or when it is older than the
cutoff, and the rest comes from what is behind it. -/
theorem PruneEntries_position (front back : List RtpSource) (e : RtpSource) (now_ms : Int) :
    ∃ tail, tail.Sublist back ∧
      PruneEntries (front ++ e :: back) now_ms
        = PruneEntries front now_ms ++
          ((if (∃ a ∈ front, a.key = e.key) ∨ e.timestamp_ms < now_ms - 10000 then []
            else [e]) ++ tail) := by
  refine ⟨PruneEntries.loop (now_ms - 10000) (e.key :: (front.map RtpSource.key ++ [])) back,
    loop_sublist _ _ _, ?_⟩
  unfold PruneEntries
  simp only
  rw [loop_append, loop_cons]
  have hiff : (e.key ∈ front.map RtpSource.key ++ []) ↔ ∃ a ∈ front, a.key = e.key := by
    rw [List.append_nil, List.mem_map]
  by_cases h : (∃ a ∈ front, a.key = e.key) ∨ e.timestamp_ms < now_ms - 10000
  · rw [if_pos h, if_pos (by rw [hiff]; exact h)]
    rfl
  · rw [if_neg h, if_neg (by rw [hiff]; exact h)]
    rfl

theorem pushed_remove_query (before after : List Call) (t : Int) :
    pushed (before ++ Call.GetSources t :: after) = pushed (before ++ after) := by
  simp [pushed, List.foldl_append]

theorem PruneEntries_snoc (l : List RtpSource) (e : RtpSource) (now_ms : Int) :
    PruneEntries (l ++ [e]) now_ms
      = PruneEntries l now_ms ++
        (if (∀ a ∈ l, a.key ≠ e.key) ∧ now_ms - 10000 ≤ e.timestamp_ms then [e] else []) := by
  unfold PruneEntries
  simp only
  rw [loop_append, loop_cons, loop_nil]
  have hiff : (e.key ∈ l.map RtpSource.key ++ []) ↔ ∃ a ∈ l, a.key = e.key := by
    rw [List.append_nil, List.mem_map]
  by_cases h : (∀ a ∈ l, a.key ≠ e.key) ∧ now_ms - 10000 ≤ e.timestamp_ms
  · rw [if_pos h, if_neg]
    rw [hiff]
    rintro (⟨a, ha, hak⟩ | hlt)
    · exact h.1 a ha hak
    · omega
  · rw [if_neg h, if_pos]
    rw [hiff]
    by_contra hcon
    push_neg at hcon
    exact h ⟨fun a ha => hcon.1 a ha, hcon.2⟩

theorem firstFresh_snoc (c : Int) (l : List RtpSource) (e : RtpSource) :
    firstFresh c (l ++ [e])
      = firstFresh c l ++
        (if (∀ a ∈ l, a.key ≠ e.key) ∧ c ≤ e.timestamp_ms then [e] else []) := by
  unfold firstFresh
  rw [List.length_append, List.length_singleton, List.range_succ, List.filterMap_append]
  congr 1
  · apply List.filterMap_congr
    intro i hi
    rw [List.mem_range] at hi
    rw [List.getElem?_append_left hi, List.take_append_of_le_length (le_of_lt hi)]
  · simp only [List.filterMap_cons, List.filterMap_nil, List.getElem?_concat_length,
      List.take_left]
    by_cases h : (∀ a ∈ l, a.key ≠ e.key) ∧ c ≤ e.timestamp_ms
    · have h2 : (∀ a ∈ l, (a.source_type, a.source_id) ≠ (e.source_type, e.source_id)) ∧
          c ≤ e.timestamp_ms := h
      rw [if_pos h, if_pos h2]
    · have h2 : ¬ ((∀ a ∈ l, (a.source_type, a.source_id) ≠ (e.source_type, e.source_id)) ∧
          c ≤ e.timestamp_ms) := h
      rw [if_neg h, if_neg h2]

/-- The loop of the code selects the first occurrences of the keys that are
not older than the cutoff. -/
theorem PruneEntries_eq_firstFresh (l : List RtpSource) (now_ms : Int) :
    PruneEntries l now_ms = firstFresh (now_ms - 10000) l := by
  induction l using List.reverseRecOn with
  | nil => rfl
  | append_singleton l e ih => rw [PruneEntries_snoc, firstFresh_snoc, ih]

theorem emplacePacket_eq (now_ms : Int) (entries_ : List RtpSource) (p : RtpPacketInfo) :
    emplacePacket now_ms entries_ p = packetBlock now_ms p ++ entries_ := by
  simp [emplacePacket, packetBlock, foldl_emplace_front]

theorem reverse_listing (now_ms : Int) (f : List RtpPacketInfo) :
    (listing now_ms f).reverse = f.reverse.flatMap (packetBlock now_ms) := by
  induction f with
  | nil => rfl
  | cons p f ih =>
    have hcons : listing now_ms (p :: f) = listing now_ms [p] ++ listing now_ms f :=
      listing_append now_ms [p] f
    rw [hcons, List.reverse_append, ih, List.reverse_cons, List.flatMap_append]
    simp [listing, packetBlock]

theorem insertLastListedFirst_reverseCsrcs (now_ms : Int) (entries_ : List RtpSource)
    (p : RtpPacketInfo) :
    insertLastListedFirst now_ms entries_ p.reverseCsrcs = emplacePacket now_ms entries_ p := by
  simp [insertLastListedFirst, emplacePacket, RtpPacketInfo.reverseCsrcs]

theorem foldl_insertLastListedFirst (now_ms : Int) (f : List RtpPacketInfo) :
    ∀ entries_, (f.map RtpPacketInfo.reverseCsrcs).foldl (insertLastListedFirst now_ms) entries_
      = emplaceFrame now_ms entries_ f := by
  induction f with
  | nil => intro entries_; rfl
  | cons p f ih =>
    intro entries_
    rw [List.map_cons, List.foldl_cons, insertLastListedFirst_reverseCsrcs, ih]
    rfl

theorem emplacePacket_eraseReceiveTime (now_ms : Int) (entries_ : List RtpSource)
    (p : RtpPacketInfo) :
    emplacePacket now_ms entries_ p.eraseReceiveTime = emplacePacket now_ms entries_ p := rfl

theorem emplaceFrame_eraseReceiveTime (now_ms : Int) (f : List RtpPacketInfo) :
    ∀ entries_, emplaceFrame now_ms entries_ (f.map RtpPacketInfo.eraseReceiveTime)
      = emplaceFrame now_ms entries_ f := by
  induction f with
  | nil => intro entries_; rfl
  | cons p f ih =>
    intro entries_
    have h := ih (emplacePacket now_ms entries_ p)
    unfold emplaceFrame at h ⊢
    rw [List.map_cons, List.foldl_cons, List.foldl_cons, emplacePacket_eraseReceiveTime, h]

theorem step_eraseReceiveTime (entries_ : List RtpSource) (call : Call) :
    step entries_ call.eraseReceiveTime = step entries_ call := by
  cases call with
  | OnFrameDelivered now_ms f =>
    show PruneEntries (emplaceFrame now_ms entries_ (f.map RtpPacketInfo.eraseReceiveTime)) now_ms
      = PruneEntries (emplaceFrame now_ms entries_ f) now_ms
    rw [emplaceFrame_eraseReceiveTime]
  | GetSources now_ms => rfl

/-- The stored list does not depend on the receive times of the packets. -/
theorem run_eraseReceiveTime (calls : List Call) :
    ∀ entries_, run entries_ (calls.map Call.eraseReceiveTime) = run entries_ calls := by
  induction calls with
  | nil => intro entries_; rfl
  | cons call calls ih =>
    intro entries_
    rw [List.map_cons, run_cons, run_cons, step_eraseReceiveTime, ih]

/-- Whatever the clock does, the stored list holds only inserted entries. -/
theorem run_sublist_pushed (calls : List Call) : (run [] calls).Sublist (pushed calls) := by
  induction calls using List.reverseRecOn with
  | nil => exact List.Sublist.refl _
  | append_singleton calls call ih =>
    rw [run_snoc]
    cases call with
    | OnFrameDelivered now_ms f =>
      rw [pushed_snoc_deliver]
      show (OnFrameDelivered (run [] calls) now_ms f).Sublist _
      rw [OnFrameDelivered_eq]
      exact (PruneEntries_sublist _ _).trans ((List.Sublist.refl _).append ih)
    | GetSources now_ms =>
      rw [pushed_snoc_query]
      exact (PruneEntries_sublist _ _).trans ih

/-- Every inserted entry was created by a delivery of the sequence. -/
theorem mem_pushed (calls : List Call) (x : RtpSource) (hx : x ∈ pushed calls) :
    ∃ now_ms f, Call.OnFrameDelivered now_ms f ∈ calls ∧ x ∈ listing now_ms f := by
  induction calls using List.reverseRecOn with
  | nil => simp [pushed] at hx
  | append_singleton calls call ih =>
    cases call with
    | OnFrameDelivered now_ms f =>
      rw [pushed_snoc_deliver, List.mem_append, List.mem_reverse] at hx
      rcases hx with hx | hx
      · exact ⟨now_ms, f, by simp, hx⟩
      · obtain ⟨n, g, hmem, hg⟩ := ih hx
        exact ⟨n, g, List.mem_append_left _ hmem, hg⟩
    | GetSources now_ms =>
      rw [pushed_snoc_query] at hx
      obtain ⟨n, g, hmem, hg⟩ := ih hx
      exact ⟨n, g, List.mem_append_left _ hmem, hg⟩

/-- A stored list has no two entries of one key, so no old entry stands in
front of a newer one of its key. -/
theorem run_ordered (calls : List Call) (c : Int) :
    (run [] calls).Pairwise
      (fun a b => a.key = b.key → a.timestamp_ms < c → b.timestamp_ms < c) := by
  have h := run_keys_nodup calls
  rw [List.Nodup, List.pairwise_map] at h
  exact h.imp (fun hne heq => absurd heq hne)

/-- In the list a delivery prunes, no entry older than the cutoff stands in
front of an entry of its key: the insertions are stamped with the clock
reading, and the old list has no two entries of one key. -/
theorem emplaceFrame_run_ordered (calls : List Call) (now_ms : Int) (f : List RtpPacketInfo) :
    (emplaceFrame now_ms (run [] calls) f).Pairwise
      (fun a b => a.key = b.key → a.timestamp_ms < now_ms - 10000 →
        b.timestamp_ms < now_ms - 10000) := by
  rw [emplaceFrame_eq]
  have hts : ∀ x ∈ (listing now_ms f).reverse, x.timestamp_ms = now_ms :=
    fun x hx => listing_timestamp now_ms f x (List.mem_reverse.1 hx)
  rw [List.pairwise_append]
  refine ⟨?_, run_ordered calls _, ?_⟩
  · apply List.pairwise_of_forall_mem_list
    intro a ha b _ _ hlt
    rw [hts a ha] at hlt
    omega
  · intro a ha b _ _ hlt
    rw [hts a ha] at hlt
    omega

end ExpectedSourceTracker

/-! ## The properties of the specification -/

open ExpectedSourceTracker

/-- C1, dedup invariant.  For every sequence of `OnFrameDelivered` and
`GetSources` calls on an initially empty tracker, with arbitrary frames and
arbitrary clock readings, the stored entry sequence after the calls and the
result of a `GetSources` call made then (at any clock reading) contain no two
entries with the same `(source_type, source_id)` pair. -/
theorem dedup_invariant (calls : List Call) (now_ms : Int) :
    (run [] calls).Pairwise
        (fun a b => (a.source_type, a.source_id) ≠ (b.source_type, b.source_id)) ∧
      (GetSources (run [] calls) now_ms).1.Pairwise
        (fun a b => (a.source_type, a.source_id) ≠ (b.source_type, b.source_id)) := by
  constructor
  · have h := run_keys_nodup calls
    rw [List.Nodup, List.pairwise_map] at h
    exact h
  · have h := PruneEntries_keys_nodup (run [] calls) now_ms
    rw [List.Nodup, List.pairwise_map] at h
    exact h

/-- C2 as stated fails: in the scenario of the test `TimedOutSourcesAreRemoved`
the query at `t0 + 17 + 10000` returns entries stamped `t0 + 17`, which are
exactly `10000` ms old, not less. -/
theorem expiry_strict_counterexample :
    ¬ ∀ e ∈ (GetSources
          (run [] updateCalls)
          (t0 + 17 + 10000)).1,
        (t0 + 17 + 10000) - e.timestamp_ms < 10000 := by
  decide

/-- C2, expiry invariant, amended.  For every sequence of ingests and queries
on an initially empty tracker, every entry returned by `GetSources` at clock
time `T` satisfies `T - entry.timestamp_ms ≤ 10000`: an entry exactly
`10000` ms old is still returned. -/
theorem expiry_invariant (calls : List Call) (T : Int) (e : RtpSource)
    (he : e ∈ (GetSources (run [] calls) T).1) : T - e.timestamp_ms ≤ kTimeoutMs := by
  have h := (mem_PruneEntries (run [] calls) T e he).2
  unfold kTimeoutMs
  omega

theorem expiry_invariant_witness :
    RtpSource.mk (t0 + 17) 22 RtpSourceType.CSRC none 41 ∈
        (GetSources
          (run [] updateCalls)
          (t0 + 17 + 10000)).1 ∧
      (t0 + 17 + 10000) - (RtpSource.mk (t0 + 17) 22 RtpSourceType.CSRC none 41).timestamp_ms
        ≤ kTimeoutMs :=
  ⟨by decide,
    expiry_invariant updateCalls (t0 + 17 + 10000)
      (RtpSource.mk (t0 + 17) 22 RtpSourceType.CSRC none 41) (by decide)⟩

/-- C3, timeout removal with the exact window.  For every sequence of
`OnFrameDelivered` / `GetSources` calls on an initially empty tracker under a
non-decreasing clock, `GetSources` at a time `T` not before the last call
returns an entry for the key `k` if and only if `k` occurred in some delivered
frame and the time `t` of the latest delivery containing `k` satisfies
`t ≥ T - 10000`; the timestamp of a returned entry for `k` is that `t`. -/
theorem timeout_exact_window (calls : List Call) (T : Int)
    (hmono : (clockReadings calls ++ [T]).Pairwise (fun a b => a ≤ b)) (k : SourceKey) :
    ((∃ e ∈ (GetSources (run [] calls) T).1, (e.source_type, e.source_id) = k)
        ↔ ∃ t, latestDelivery k calls = some t ∧ t ≥ T - 10000) ∧
      ∀ e ∈ (GetSources (run [] calls) T).1, (e.source_type, e.source_id) = k →
        latestDelivery k calls = some e.timestamp_ms := by
  rw [GetSources_run calls T hmono]
  have hfind := find_pushed k calls
  have key : ∀ e ∈ PruneEntries (pushed calls) T, (e.source_type, e.source_id) = k →
      latestDelivery k calls = some e.timestamp_ms ∧ T - 10000 ≤ e.timestamp_ms := by
    intro e he hk
    have h := (mem_PruneEntries_iff (pushed calls) T k e).1 ⟨he, hk⟩
    rw [h.1] at hfind
    exact ⟨hfind.symm, h.2⟩
  refine ⟨⟨?_, ?_⟩, fun e he hk => (key e he hk).1⟩
  · rintro ⟨e, he, hk⟩
    exact ⟨e.timestamp_ms, (key e he hk).1, (key e he hk).2⟩
  · rintro ⟨t, ht, hge⟩
    rw [ht] at hfind
    cases hf : (pushed calls).find? (fun x => decide (x.key = k)) with
    | none => rw [hf] at hfind; simp at hfind
    | some x =>
      rw [hf] at hfind
      have hxt : x.timestamp_ms = t := by simpa using hfind
      have h := (mem_PruneEntries_iff (pushed calls) T k x).2 ⟨hf, by omega⟩
      exact ⟨x, h.1, h.2⟩

theorem timeout_exact_window_witness :
    (clockReadings updateCalls ++ [t0 + 17 + 10000]).Pairwise (fun a b => a ≤ b) ∧
      (∃ e ∈ (GetSources (run [] updateCalls) (t0 + 17 + 10000)).1,
        (e.source_type, e.source_id) = (RtpSourceType.CSRC, 22)) ∧
      ¬ ∃ e ∈ (GetSources (run [] updateCalls) (t0 + 17 + 10000)).1,
        (e.source_type, e.source_id) = (RtpSourceType.CSRC, 21) :=
  ⟨by decide,
    (timeout_exact_window updateCalls (t0 + 17 + 10000) (by decide)
      (RtpSourceType.CSRC, 22)).1.2 ⟨t0 + 17, by decide, by decide⟩,
    fun h => by
      obtain ⟨t, ht, hge⟩ :=
        (timeout_exact_window updateCalls (t0 + 17 + 10000) (by decide)
          (RtpSourceType.CSRC, 21)).1.1 h
      have h0 : latestDelivery (RtpSourceType.CSRC, 21) updateCalls = some t0 := by decide
      rw [h0] at ht
      cases ht
      revert hge
      decide⟩

/-- C4, most recent wins.  For every tracker state (in particular every
reachable one) and every frame delivered at clock time `now_ms`, `GetSources`
called at the same time contains, for each key occurring in the frame, exactly
one entry: the entries of the result with that key form a one-element list.
That entry has `timestamp_ms = now_ms` and the `audio_level` (absent stays
absent) and `rtp_timestamp` of the last packet of the frame that carries the
key, so no older entry for the key survives. -/
theorem most_recent_wins (entries_ : List RtpSource) (now_ms : Int)
    (packet_infos : List RtpPacketInfo) (k : SourceKey) (hk : k ∈ frameKeys packet_infos) :
    ∃ p, lastPacketWith k packet_infos = some p ∧
      (GetSources (OnFrameDelivered entries_ now_ms packet_infos) now_ms).1.filter
          (fun e => decide ((e.source_type, e.source_id) = k))
        = [RtpSource.mk now_ms k.2 k.1 p.audio_level p.rtp_timestamp] := by
  obtain ⟨p, hp, hfind⟩ := find_listing now_ms k packet_infos hk
  refine ⟨p, hp, ?_⟩
  rw [GetSources_OnFrameDelivered]
  have h := PruneEntries_filter_key ((listing now_ms packet_infos).reverse ++ entries_) now_ms k
  rw [List.find?_append, hfind] at h
  simpa [RtpSource.key] using h

theorem most_recent_wins_witness :
    (RtpSourceType.CSRC, 20) ∈ frameKeys frame1 ∧
      ∃ p, lastPacketWith (RtpSourceType.CSRC, 20) frame1 = some p ∧
        (GetSources (OnFrameDelivered (OnFrameDelivered [] t0 frame0) (t0 + 17) frame1)
            (t0 + 17)).1.filter
            (fun e => decide ((e.source_type, e.source_id) = (RtpSourceType.CSRC, 20)))
          = [RtpSource.mk (t0 + 17) 20 RtpSourceType.CSRC p.audio_level p.rtp_timestamp] :=
  ⟨by decide,
    most_recent_wins (OnFrameDelivered [] t0 frame0) (t0 + 17) frame1 (RtpSourceType.CSRC, 20)
      (by decide)⟩

/-- C5, single-frame order.  For every frame whose packets carry pairwise
distinct keys, delivered to an empty tracker at time `now_ms`, `GetSources` at
the same time returns exactly the reverse of `listing`: for each packet in
frame order, each contributing-source id in its listed order followed by the
packet's synchronization-source id, every entry stamped `now_ms` and carrying
the `audio_level` and `rtp_timestamp` of its packet.  For one packet with ssrc
`s` and csrcs `[c0, c1]` the result is `[SSRC s, CSRC c1, CSRC c0]`. -/
theorem single_frame_order (now_ms : Int) (packet_infos : List RtpPacketInfo)
    (hdistinct : (frameKeys packet_infos).Nodup) :
    (GetSources (OnFrameDelivered [] now_ms packet_infos) now_ms).1
        = (listing now_ms packet_infos).reverse ∧
      ∀ s c0 c1 rtp_timestamp audio_level receive_time_ms,
        packet_infos = [RtpPacketInfo.mk s [c0, c1] rtp_timestamp audio_level receive_time_ms] →
        (GetSources (OnFrameDelivered [] now_ms packet_infos) now_ms).1
          = [RtpSource.mk now_ms s RtpSourceType.SSRC audio_level rtp_timestamp,
             RtpSource.mk now_ms c1 RtpSourceType.CSRC audio_level rtp_timestamp,
             RtpSource.mk now_ms c0 RtpSourceType.CSRC audio_level rtp_timestamp] := by
  have hmain : (GetSources (OnFrameDelivered [] now_ms packet_infos) now_ms).1
      = (listing now_ms packet_infos).reverse := by
    rw [GetSources_OnFrameDelivered, List.append_nil, PruneEntries_of_nodup]
    · rw [List.filter_eq_self]
      intro x hx
      have := listing_timestamp now_ms packet_infos x (List.mem_reverse.1 hx)
      simp [this]
    · rw [List.map_reverse, List.nodup_reverse, listing_keys]
      exact hdistinct
  refine ⟨hmain, ?_⟩
  intro s c0 c1 rtp_timestamp audio_level receive_time_ms hf
  rw [hmain, hf]
  simp [listing]

theorem single_frame_order_witness :
    (frameKeys frame0).Nodup ∧
      (GetSources (OnFrameDelivered [] t0 frame0) t0).1
        = [RtpSource.mk t0 10 RtpSourceType.SSRC (some 50) 40,
           RtpSource.mk t0 21 RtpSourceType.CSRC (some 50) 40,
           RtpSource.mk t0 20 RtpSourceType.CSRC (some 50) 40] :=
  ⟨by decide, (single_frame_order t0 frame0 (by decide)).2 10 20 21 40 (some 50) 60 rfl⟩

/-- C6, recency-order invariant.  For every sequence of ingests and queries on
an initially empty tracker under a non-decreasing clock, the timestamps of a
`GetSources` result are non-increasing from front to back: whenever `a`
appears before `b`, `a` was last updated at or after `b`.  Entries keep the
order of their insertion, most recent insertion first: the result is a
sublist of `pushed`, the list of all insertions with the latest in front, so
entries with equal timestamps are ordered by most recent insertion. -/
theorem recency_order (calls : List Call) (T : Int)
    (hmono : (clockReadings calls ++ [T]).Pairwise (fun a b => a ≤ b)) :
    (GetSources (run [] calls) T).1.Pairwise (fun a b => a.timestamp_ms ≥ b.timestamp_ms) ∧
      (GetSources (run [] calls) T).1.Sublist (pushed calls) := by
  rw [GetSources_run calls T hmono]
  have hsub := PruneEntries_sublist (pushed calls) T
  exact ⟨(pushed_sorted calls (clock_split calls T hmono).1).1.sublist hsub, hsub⟩

theorem recency_order_witness :
    (clockReadings updateCalls ++ [t0 + 17]).Pairwise (fun a b => a ≤ b) ∧
      (GetSources (run [] updateCalls) (t0 + 17)).1.Pairwise
        (fun a b => a.timestamp_ms ≥ b.timestamp_ms) ∧
      (GetSources (run [] updateCalls) (t0 + 17)).1.Sublist (pushed updateCalls) :=
  ⟨by decide, recency_order updateCalls (t0 + 17) (by decide)⟩

/-- C7, untouched sources are preserved by an ingest.  For every reachable
tracker state `run [] calls` and every frame delivered at time `now_ms`: the
list stored afterwards is what the delivery stores on an empty tracker (all of
it entries created by this delivery) followed by the old entries whose key
does not occur in the frame and whose `timestamp_ms ≥ now_ms - 10000`, these
being unchanged and in their old relative order; so each such old entry is
still stored; and every old entry that is gone afterwards was either
superseded by a same-key entry created by this delivery or had
`timestamp_ms < now_ms - 10000`. -/
theorem untouched_preserved (calls : List Call) (now_ms : Int)
    (packet_infos : List RtpPacketInfo) :
    OnFrameDelivered (run [] calls) now_ms packet_infos
        = OnFrameDelivered [] now_ms packet_infos ++
          (run [] calls).filter
            (fun e => decide ((e.source_type, e.source_id) ∉ frameKeys packet_infos ∧
              e.timestamp_ms ≥ now_ms - 10000)) ∧
      (∀ e ∈ OnFrameDelivered [] now_ms packet_infos, e ∈ listing now_ms packet_infos) ∧
      (∀ e ∈ run [] calls, (e.source_type, e.source_id) ∉ frameKeys packet_infos →
        e.timestamp_ms ≥ now_ms - 10000 →
        e ∈ OnFrameDelivered (run [] calls) now_ms packet_infos) ∧
      (∀ e ∈ run [] calls, e ∉ OnFrameDelivered (run [] calls) now_ms packet_infos →
        (∃ n ∈ OnFrameDelivered [] now_ms packet_infos,
            (n.source_type, n.source_id) = (e.source_type, e.source_id)) ∨
          e.timestamp_ms < now_ms - 10000) := by
  have hsplit := OnFrameDelivered_split (run [] calls) now_ms packet_infos (run_keys_nodup calls)
  have hkept : ∀ e ∈ run [] calls, (e.source_type, e.source_id) ∉ frameKeys packet_infos →
      e.timestamp_ms ≥ now_ms - 10000 →
      e ∈ OnFrameDelivered (run [] calls) now_ms packet_infos := by
    intro e he hk hts
    rw [hsplit, List.mem_append, List.mem_filter]
    exact Or.inr ⟨he, by simpa [RtpSource.key] using And.intro hk hts⟩
  refine ⟨hsplit, mem_OnFrameDelivered_nil now_ms packet_infos, hkept, ?_⟩
  intro e he hgone
  by_cases hts : e.timestamp_ms < now_ms - 10000
  · exact Or.inr hts
  · left
    have hk : (e.source_type, e.source_id) ∈ frameKeys packet_infos := by
      by_contra hk
      exact hgone (hkept e he hk (not_lt.1 hts))
    obtain ⟨n, hn, hnk, _⟩ :=
      GetSources_OnFrameDelivered_mem [] now_ms packet_infos _ hk
    have hn2 : n ∈ OnFrameDelivered [] now_ms packet_infos := by
      rw [GetSources_OnFrameDelivered] at hn
      rw [OnFrameDelivered_eq]
      exact hn
    exact ⟨n, hn2, hnk⟩

theorem untouched_preserved_witness :
    RtpSource.mk t0 21 RtpSourceType.CSRC (some 50) 40
        ∈ run [] [Call.OnFrameDelivered t0 frame0] ∧
      (RtpSourceType.CSRC, 21) ∉ frameKeys frame1 ∧
      t0 ≥ t0 + 17 - 10000 ∧
      RtpSource.mk t0 21 RtpSourceType.CSRC (some 50) 40
        ∈ OnFrameDelivered (run [] [Call.OnFrameDelivered t0 frame0]) (t0 + 17) frame1 :=
  ⟨by decide, by decide, by decide,
    (untouched_preserved [Call.OnFrameDelivered t0 frame0] (t0 + 17) frame1).2.2.1
      (RtpSource.mk t0 21 RtpSourceType.CSRC (some 50) 40) (by decide) (by decide) (by decide)⟩

/-- C8, randomized differential equivalence.  For every sequence of frames
and non-negative clock advances, starting from empty trackers on the same
clock, the production tracker as designed in section 4.1 of the specification
(insert every entry at the front, then prune front to back, marking a key seen
only when its entry is kept) and the reference tracker `ExpectedSourceTracker`
return element-for-element equal `GetSources` results after every ingest of
the loop of `RandomOperations`. -/
theorem differential_equivalence (start_ms : Int) (iterations : List (List RtpPacketInfo × Int))
    (hadvance : ∀ it ∈ iterations, 0 ≤ it.2) :
    actualSnapshots start_ms [] iterations = expectedSnapshots start_ms [] iterations :=
  snapshots_eq iterations start_ms [] List.Pairwise.nil (fun _ hx => by simp at hx) hadvance

theorem differential_equivalence_witness :
    (∀ it ∈ iterations0, 0 ≤ it.2) ∧
      actualSnapshots t0 [] iterations0 = expectedSnapshots t0 [] iterations0 :=
  ⟨by decide, differential_equivalence t0 iterations0 (by decide)⟩

/-- C9, the type is part of the identity.  For every id `x`: (1) from any
tracker state, after delivering a frame in which `x` occurs both as a
synchronization-source id and as a contributing-source id (in the same packet
or in different packets), `GetSources` at the delivery time returns both an
SSRC `x` entry and a CSRC `x` entry; (2) under a non-decreasing clock, if the
latest deliveries of SSRC `x` and of CSRC `x` (in the same or in different
frames) are both inside the window of a query, the query returns both an SSRC
`x` entry and a CSRC `x` entry; (3) `PruneEntries` keeps an entry that is not
older than the cutoff whenever no entry in front of it has both its
`source_type` and its `source_id`, so an entry in front with the same
`source_id` but the other `source_type` never causes its removal. -/
theorem type_is_part_of_identity (x : Nat) :
    (∀ (entries_ : List RtpSource) (now_ms : Int) (packet_infos : List RtpPacketInfo),
        (RtpSourceType.SSRC, x) ∈ frameKeys packet_infos →
        (RtpSourceType.CSRC, x) ∈ frameKeys packet_infos →
        (∃ e ∈ (GetSources (OnFrameDelivered entries_ now_ms packet_infos) now_ms).1,
            e.source_type = RtpSourceType.SSRC ∧ e.source_id = x) ∧
          ∃ e ∈ (GetSources (OnFrameDelivered entries_ now_ms packet_infos) now_ms).1,
            e.source_type = RtpSourceType.CSRC ∧ e.source_id = x) ∧
      (∀ (calls : List Call) (T t1 t2 : Int),
        (clockReadings calls ++ [T]).Pairwise (fun a b => a ≤ b) →
        latestDelivery (RtpSourceType.SSRC, x) calls = some t1 → t1 ≥ T - 10000 →
        latestDelivery (RtpSourceType.CSRC, x) calls = some t2 → t2 ≥ T - 10000 →
        (∃ e ∈ (GetSources (run [] calls) T).1,
            e.source_type = RtpSourceType.SSRC ∧ e.source_id = x ∧ e.timestamp_ms = t1) ∧
          ∃ e ∈ (GetSources (run [] calls) T).1,
            e.source_type = RtpSourceType.CSRC ∧ e.source_id = x ∧ e.timestamp_ms = t2) ∧
      (∀ (front back : List RtpSource) (e : RtpSource) (now_ms : Int),
        e.source_id = x →
        e.timestamp_ms ≥ now_ms - 10000 →
        (∀ a ∈ front, ¬ (a.source_type = e.source_type ∧ a.source_id = e.source_id)) →
        e ∈ PruneEntries (front ++ e :: back) now_ms) := by
  have hkey : ∀ (e : RtpSource) (ty : RtpSourceType), e.key = (ty, x) →
      e.source_type = ty ∧ e.source_id = x := by
    intro e ty h
    simp only [RtpSource.key, Prod.mk.injEq] at h
    exact h
  refine ⟨?_, ?_, ?_⟩
  · intro entries_ now_ms packet_infos hs hc
    obtain ⟨e1, he1, hk1, _⟩ := GetSources_OnFrameDelivered_mem entries_ now_ms packet_infos _ hs
    obtain ⟨e2, he2, hk2, _⟩ := GetSources_OnFrameDelivered_mem entries_ now_ms packet_infos _ hc
    exact ⟨⟨e1, he1, hkey e1 _ hk1⟩, ⟨e2, he2, hkey e2 _ hk2⟩⟩
  · intro calls T t1 t2 hmono h1 hg1 h2 hg2
    obtain ⟨e1, he1, hk1, ht1⟩ := GetSources_of_latestDelivery calls T hmono _ t1 h1 hg1
    obtain ⟨e2, he2, hk2, ht2⟩ := GetSources_of_latestDelivery calls T hmono _ t2 h2 hg2
    exact ⟨⟨e1, he1, (hkey e1 _ hk1).1, (hkey e1 _ hk1).2, ht1⟩,
      ⟨e2, he2, (hkey e2 _ hk2).1, (hkey e2 _ hk2).2, ht2⟩⟩
  · intro front back e now_ms _ hts hfront
    unfold PruneEntries
    simp only
    rw [loop_append, loop_cons]
    have hnew : ¬ (e.key ∈ front.map RtpSource.key ++ [] ∨ e.timestamp_ms < now_ms - 10000) := by
      rintro (h | h)
      · rw [List.append_nil, List.mem_map] at h
        obtain ⟨a, ha, hak⟩ := h
        simp only [RtpSource.key, Prod.mk.injEq] at hak
        exact hfront a ha hak
      · omega
    rw [if_neg hnew]
    exact List.mem_append_right _ (List.mem_cons_self _ _)

theorem type_is_part_of_identity_witness :
    ((RtpSourceType.SSRC, 10) ∈ frameKeys frameBoth ∧
        (RtpSourceType.CSRC, 10) ∈ frameKeys frameBoth) ∧
      ((∃ e ∈ (GetSources (OnFrameDelivered [] t0 frameBoth) t0).1,
          e.source_type = RtpSourceType.SSRC ∧ e.source_id = 10) ∧
        ∃ e ∈ (GetSources (OnFrameDelivered [] t0 frameBoth) t0).1,
          e.source_type = RtpSourceType.CSRC ∧ e.source_id = 10) ∧
      RtpSource.mk t0 10 RtpSourceType.CSRC none 41
        ∈ PruneEntries
          ([RtpSource.mk t0 10 RtpSourceType.SSRC (some 50) 40] ++
            RtpSource.mk t0 10 RtpSourceType.CSRC none 41 :: []) t0 :=
  ⟨⟨by decide, by decide⟩,
    (type_is_part_of_identity 10).1 [] t0 frameBoth (by decide) (by decide),
    (type_is_part_of_identity 10).2.2 [RtpSource.mk t0 10 RtpSourceType.SSRC (some 50) 40] []
      (RtpSource.mk t0 10 RtpSourceType.CSRC none 41) t0 rfl (by decide) (by decide)⟩

/-- C10, an empty frame is a no-op ingest.  Delivering a frame with no
packet-info records at time `now_ms` inserts nothing and leaves the stored
sequence equal to `PruneEntries(now_ms)` of the previous sequence; and under a
clock that does not go back from `now_ms` on, after any later calls a
`GetSources` returns the same sequence it would have returned had the empty
delivery not happened. -/
theorem empty_frame_noop (entries_ : List RtpSource) (now_ms : Int) :
    emplaceFrame now_ms entries_ [] = entries_ ∧
      OnFrameDelivered entries_ now_ms [] = PruneEntries entries_ now_ms ∧
      ∀ (later : List Call) (T : Int),
        (now_ms :: (clockReadings later ++ [T])).Pairwise (fun a b => a ≤ b) →
        (GetSources (run (OnFrameDelivered entries_ now_ms []) later) T).1
          = (GetSources (run entries_ later) T).1 := by
  refine ⟨rfl, rfl, ?_⟩
  intro later T hclock
  rw [List.pairwise_cons] at hclock
  have hnoop : OnFrameDelivered entries_ now_ms [] = PruneEntries entries_ now_ms := rfl
  rw [hnoop]
  cases later with
  | nil =>
    have hT : now_ms ≤ T := hclock.1 T (by simp [clockReadings])
    exact PruneEntries_PruneEntries _ _ _ hT
  | cons call later =>
    have hcall : now_ms ≤ call.now_ms := hclock.1 _ (by simp [clockReadings])
    rw [run_cons, run_cons, step_PruneEntries _ _ _ hcall]

theorem empty_frame_noop_witness :
    ((t0 + 17) ::
          (clockReadings [Call.OnFrameDelivered (t0 + 17) frame1] ++ [t0 + 17 + 10000])).Pairwise
        (fun a b => a ≤ b) ∧
      (GetSources
          (run (OnFrameDelivered (OnFrameDelivered [] t0 frame0) (t0 + 17) [])
            [Call.OnFrameDelivered (t0 + 17) frame1]) (t0 + 17 + 10000)).1
        = (GetSources
          (run (OnFrameDelivered [] t0 frame0) [Call.OnFrameDelivered (t0 + 17) frame1])
          (t0 + 17 + 10000)).1 :=
  ⟨by decide,
    (empty_frame_noop (OnFrameDelivered [] t0 frame0) (t0 + 17)).2.2
      [Call.OnFrameDelivered (t0 + 17) frame1] (t0 + 17 + 10000) (by decide)⟩

/-- C11, idempotent emptiness.  `GetSources` on a freshly constructed tracker
returns the empty sequence, at every clock value and after any number of
earlier `GetSources` calls, made at any clock values, before the first
`OnFrameDelivered`; the stored list stays empty. -/
theorem idempotent_emptiness (readings : List Int) (now_ms : Int) :
    (GetSources (run [] (readings.map Call.GetSources)) now_ms).1 = [] ∧
      run [] (readings.map Call.GetSources) = [] := by
  have hrun : run [] (readings.map Call.GetSources) = [] := by
    induction readings with
    | nil => rfl
    | cons t readings ih =>
      rw [List.map_cons, run_cons]
      exact ih
  rw [hrun]
  exact ⟨rfl, rfl⟩

/-- C12 as stated fails: with an entry stamped `0` in front of an entry of the
same key stamped `20000`, the prune pass at `20000` erases both entries, the
first for its age and the second because the first has put the key into
`seen`, while the scan of section 4.1 keeps the second. -/
theorem stale_in_front_counterexample :
    PruneEntries staleInFront 20000 = [] ∧
      prunePolicy staleInFront 20000 = [RtpSource.mk 20000 1 RtpSourceType.SSRC none 0] ∧
      PruneEntries staleInFront 20000 ≠ prunePolicy staleInFront 20000 := by
  decide

/-- C12, prune policy, amended.  For every entry sequence in which no entry
older than the cutoff stands in front of an entry of the same key that is not
older than the cutoff, and every `now_ms`, `PruneEntries(now_ms)` leaves
exactly the entries selected by the front-to-back scan of section 4.1 with
`cutoff = now_ms - 10000` (seen key: removed; else older than the cutoff:
removed; else kept and its key marked seen), in their original order.  Every
sequence the tracker prunes is of that kind, whatever the clock does: the
list a delivery prunes after its insertions, and the stored list a query
prunes at any time. -/
theorem prune_policy (entries : List RtpSource) (now_ms : Int)
    (horder : entries.Pairwise
      (fun a b => (a.source_type, a.source_id) = (b.source_type, b.source_id) →
        a.timestamp_ms < now_ms - 10000 → b.timestamp_ms < now_ms - 10000)) :
    (PruneEntries entries now_ms = prunePolicy entries now_ms ∧
        (PruneEntries entries now_ms).Sublist entries) ∧
      (∀ (calls : List Call) (packet_infos : List RtpPacketInfo),
        OnFrameDelivered (run [] calls) now_ms packet_infos
          = prunePolicy (emplaceFrame now_ms (run [] calls) packet_infos) now_ms) ∧
      ∀ calls : List Call,
        (GetSources (run [] calls) now_ms).1 = prunePolicy (run [] calls) now_ms := by
  have hmain : ∀ l : List RtpSource,
      l.Pairwise (fun a b => a.key = b.key → a.timestamp_ms < now_ms - 10000 →
        b.timestamp_ms < now_ms - 10000) →
      PruneEntries l now_ms = prunePolicy l now_ms :=
    fun l hl => (prunePolicy_scan_eq (now_ms - 10000) l [] hl).symm
  refine ⟨⟨hmain entries ?_, PruneEntries_sublist entries now_ms⟩, ?_, ?_⟩
  · exact horder.imp (fun h hk => h (by simpa [RtpSource.key] using hk))
  · intro calls packet_infos
    exact hmain _ (emplaceFrame_run_ordered calls now_ms packet_infos)
  · intro calls
    exact hmain _ (run_ordered calls _)

theorem prune_policy_witness :
    (pushed updateCalls).Pairwise
        (fun a b => (a.source_type, a.source_id) = (b.source_type, b.source_id) →
          a.timestamp_ms < t0 + 17 + 10000 - 10000 → b.timestamp_ms < t0 + 17 + 10000 - 10000) ∧
      PruneEntries (pushed updateCalls) (t0 + 17 + 10000)
        = prunePolicy (pushed updateCalls) (t0 + 17 + 10000) :=
  ⟨by decide, (prune_policy (pushed updateCalls) (t0 + 17 + 10000) (by decide)).1.1⟩

/-- C13, independent removal conditions.  For every entry sequence and every
`now_ms`, `PruneEntries(now_ms)` removes the entry at a position if and only
if (a) some entry in front of it has the same `(source_type, source_id)`, or
(b) its `timestamp_ms < now_ms - 10000`: whatever stands in front of the entry
is pruned as if alone, the entry itself goes exactly under (a) or (b), and
what follows in the result comes from behind it.  So the result is
`firstFresh`, the subsequence, in original order, of the entries that are the
first occurrence of their key and are not older than the cutoff. -/
theorem independent_removal (entries : List RtpSource) (now_ms : Int) :
    PruneEntries entries now_ms = firstFresh (now_ms - 10000) entries ∧
      ∀ (front back : List RtpSource) (e : RtpSource), entries = front ++ e :: back →
        ∃ tail, tail.Sublist back ∧
          PruneEntries entries now_ms
            = PruneEntries front now_ms ++
              ((if (∃ a ∈ front,
                      (a.source_type, a.source_id) = (e.source_type, e.source_id)) ∨
                    e.timestamp_ms < now_ms - 10000 then []
                else [e]) ++ tail) := by
  refine ⟨PruneEntries_eq_firstFresh entries now_ms, ?_⟩
  intro front back e hsplit
  rw [hsplit]
  exact PruneEntries_position front back e now_ms

theorem independent_removal_witness :
    PruneEntries staleInFront 20000 = firstFresh (20000 - 10000) staleInFront ∧
      ∃ tail, tail.Sublist [] ∧
        PruneEntries staleInFront 20000
          = PruneEntries [RtpSource.mk 0 1 RtpSourceType.SSRC none 0] 20000 ++
            ((if (∃ a ∈ [RtpSource.mk 0 1 RtpSourceType.SSRC none 0],
                    (a.source_type, a.source_id) = (RtpSourceType.SSRC, 1)) ∨
                  (20000 : Int) < 20000 - 10000 then []
              else [RtpSource.mk 20000 1 RtpSourceType.SSRC none 0]) ++ tail) :=
  ⟨(independent_removal staleInFront 20000).1,
    (independent_removal staleInFront 20000).2 [RtpSource.mk 0 1 RtpSourceType.SSRC none 0] []
      (RtpSource.mk 20000 1 RtpSourceType.SSRC none 0) rfl⟩

/-- C14 as stated fails: for the frame of `OnFrameDeliveredRecordsSources`,
with csrcs `[20, 21]`, processing the contributing sources from the last
listed to the first listed would store `[SSRC 10, CSRC 20, CSRC 21]`, while
`OnFrameDelivered` stores `[SSRC 10, CSRC 21, CSRC 20]`, as the test expects. -/
theorem last_listed_first_counterexample :
    deliverLastListedFirst [] t0 frame0
        = [RtpSource.mk t0 10 RtpSourceType.SSRC (some 50) 40,
           RtpSource.mk t0 20 RtpSourceType.CSRC (some 50) 40,
           RtpSource.mk t0 21 RtpSourceType.CSRC (some 50) 40] ∧
      OnFrameDelivered [] t0 frame0
        = [RtpSource.mk t0 10 RtpSourceType.SSRC (some 50) 40,
           RtpSource.mk t0 21 RtpSourceType.CSRC (some 50) 40,
           RtpSource.mk t0 20 RtpSourceType.CSRC (some 50) 40] ∧
      OnFrameDelivered [] t0 frame0 ≠ deliverLastListedFirst [] t0 frame0 := by
  decide

/-- C14, contributing-source processing order, amended.  For every packet,
`OnFrameDelivered` processes the packet's contributing-source ids in listed
order, from the first listed id to the last listed id, inserting each new
entry at the front of the sequence, and then inserts the
synchronization-source entry at the front: a packet leaves in front of the
sequence its SSRC entry followed by its CSRC entries from the last listed to
the first listed (`packetBlock`).  The stored sequence after the call is the
prune pass applied to the blocks of the packets, last packet first, in front
of the old sequence; it is what the procedure "last listed id first" stores
when every list of contributing sources is reversed beforehand. -/
theorem processing_order (entries_ : List RtpSource) (now_ms : Int)
    (packet_infos : List RtpPacketInfo) :
    (∀ packet_info : RtpPacketInfo,
        emplacePacket now_ms entries_ packet_info = packetBlock now_ms packet_info ++ entries_) ∧
      OnFrameDelivered entries_ now_ms packet_infos
        = PruneEntries (packet_infos.reverse.flatMap (packetBlock now_ms) ++ entries_) now_ms ∧
      OnFrameDelivered entries_ now_ms packet_infos
        = deliverLastListedFirst entries_ now_ms
            (packet_infos.map RtpPacketInfo.reverseCsrcs) := by
  refine ⟨emplacePacket_eq now_ms entries_, ?_, ?_⟩
  · rw [OnFrameDelivered_eq, reverse_listing]
  · unfold deliverLastListedFirst
    rw [foldl_insertLastListedFirst]
    rfl

/-- C15, lazy pruning is unobservable.  For every sequence of
`OnFrameDelivered` and `GetSources` calls under a non-decreasing clock, a
`GetSources` at a time `T` not before the last call returns
`PruneEntries(T)` of `pushed`, the never-pruned sequence of all entries
pushed so far; deleting a `GetSources` call anywhere in the sequence (or,
read the other way, inserting it) does not change that result; and a second
`GetSources` at the same clock time returns the same sequence. -/
theorem lazy_pruning_unobservable (calls : List Call) (T : Int)
    (hmono : (clockReadings calls ++ [T]).Pairwise (fun a b => a ≤ b)) :
    (GetSources (run [] calls) T).1 = PruneEntries (pushed calls) T ∧
      (∀ (before after : List Call) (t : Int), calls = before ++ Call.GetSources t :: after →
        (GetSources (run [] (before ++ after)) T).1 = (GetSources (run [] calls) T).1) ∧
      (GetSources (GetSources (run [] calls) T).2 T).1 = (GetSources (run [] calls) T).1 := by
  refine ⟨GetSources_run calls T hmono, ?_, ?_⟩
  · intro before after t hsplit
    have hsub : (clockReadings (before ++ after) ++ [T]).Sublist (clockReadings calls ++ [T]) := by
      rw [hsplit]
      unfold clockReadings
      apply List.Sublist.append _ (List.Sublist.refl _)
      apply List.Sublist.map
      exact (List.Sublist.refl _).append (List.sublist_cons_self _ _)
    rw [GetSources_run calls T hmono, GetSources_run (before ++ after) T (hmono.sublist hsub),
      hsplit, pushed_remove_query]
  · exact PruneEntries_PruneEntries _ _ _ (le_refl T)

theorem lazy_pruning_unobservable_witness :
    (clockReadings
          [Call.OnFrameDelivered t0 frame0, Call.GetSources (t0 + 5),
            Call.OnFrameDelivered (t0 + 17) frame1] ++ [t0 + 17 + 10000]).Pairwise
        (fun a b => a ≤ b) ∧
      (GetSources (run [] ([Call.OnFrameDelivered t0 frame0] ++
            [Call.OnFrameDelivered (t0 + 17) frame1])) (t0 + 17 + 10000)).1
        = (GetSources (run []
            [Call.OnFrameDelivered t0 frame0, Call.GetSources (t0 + 5),
              Call.OnFrameDelivered (t0 + 17) frame1]) (t0 + 17 + 10000)).1 :=
  ⟨by decide,
    (lazy_pruning_unobservable
      [Call.OnFrameDelivered t0 frame0, Call.GetSources (t0 + 5),
        Call.OnFrameDelivered (t0 + 17) frame1] (t0 + 17 + 10000) (by decide)).2.1
      [Call.OnFrameDelivered t0 frame0] [Call.OnFrameDelivered (t0 + 17) frame1] (t0 + 5) rfl⟩

/-- C16, independence from packet receive time.  For any two call sequences
that have the same clock readings and deliver frames that agree packet by
packet on ssrc, csrcs, audio level and RTP timestamp (they are equal once
every `receive_time_ms` is erased), the stored lists and every `GetSources`
result are identical.  Every returned entry was created by an
`OnFrameDelivered` call of the sequence and its `timestamp_ms` is the clock
reading of that call; all entries one call inserts carry that reading. -/
theorem receive_time_independence (calls1 calls2 : List Call) (T : Int)
    (hagree : calls1.map Call.eraseReceiveTime = calls2.map Call.eraseReceiveTime) :
    run [] calls1 = run [] calls2 ∧
      (GetSources (run [] calls1) T).1 = (GetSources (run [] calls2) T).1 ∧
      (∀ e ∈ (GetSources (run [] calls1) T).1,
        ∃ now_ms packet_infos, Call.OnFrameDelivered now_ms packet_infos ∈ calls1 ∧
          e ∈ listing now_ms packet_infos ∧ e.timestamp_ms = now_ms) ∧
      ∀ (entries_ : List RtpSource) (now_ms : Int) (packet_infos : List RtpPacketInfo),
        ∃ created, emplaceFrame now_ms entries_ packet_infos = created ++ entries_ ∧
          ∀ e ∈ created, e.timestamp_ms = now_ms := by
  have hrun : run [] calls1 = run [] calls2 := by
    rw [← run_eraseReceiveTime calls1, ← run_eraseReceiveTime calls2, hagree]
  refine ⟨hrun, by rw [hrun], ?_, ?_⟩
  · intro e he
    have h1 := (mem_PruneEntries (run [] calls1) T e he).1
    obtain ⟨now_ms, f, hcall, hf⟩ := mem_pushed calls1 e ((run_sublist_pushed calls1).subset h1)
    exact ⟨now_ms, f, hcall, hf, listing_timestamp now_ms f e hf⟩
  · intro entries_ now_ms packet_infos
    exact ⟨(listing now_ms packet_infos).reverse, emplaceFrame_eq now_ms packet_infos entries_,
      fun e he => listing_timestamp now_ms packet_infos e (List.mem_reverse.1 he)⟩

theorem receive_time_independence_witness :
    [Call.OnFrameDelivered t0 frame0].map Call.eraseReceiveTime
        = [Call.OnFrameDelivered t0 frame0Late].map Call.eraseReceiveTime ∧
      (GetSources (run [] [Call.OnFrameDelivered t0 frame0]) (t0 + 17)).1
        = (GetSources (run [] [Call.OnFrameDelivered t0 frame0Late]) (t0 + 17)).1 :=
  ⟨by decide,
    (receive_time_independence [Call.OnFrameDelivered t0 frame0]
      [Call.OnFrameDelivered t0 frame0Late] (t0 + 17) (by decide)).2.1⟩

/-- C17, prune composition.  For every entry sequence `l` and all times `n1`,
`n2` (mathematical integers), `PruneEntries(n2)` applied to `PruneEntries(n1)`
of `l` equals `PruneEntries(max(n1, n2))` of `l`; hence `PruneEntries(n)` is
idempotent. -/
theorem prune_composition (l : List RtpSource) (n1 n2 : Int) :
    PruneEntries (PruneEntries l n1) n2 = PruneEntries l (max n1 n2) ∧
      PruneEntries (PruneEntries l n1) n1 = PruneEntries l n1 := by
  refine ⟨?_, PruneEntries_PruneEntries l n1 n1 (le_refl n1)⟩
  rcases le_total n1 n2 with h | h
  · rw [max_eq_right h]
    exact PruneEntries_PruneEntries l n1 n2 h
  · rw [max_eq_left h]
    exact PruneEntries_PruneEntries_of_ge l n1 n2 h

end webrtc
